import Mathlib

/-! Vocaboost: the word-enrichment pipeline and the word-filtering stage.

A shallow embedding of the Go sources

* `internal/domain/word.go`
* `internal/application/service/dictionary/{interface,WordsAPI}.go`
* `internal/application/service/images/{interface,GoogleCustomSearch}.go`
* `internal/application/service/textparser/text_parser.go`
* `internal/application/service/spacedrepetition/{interface,notion}.go`
* `internal/application/repository/redis.go`
* `internal/port/gin_http.go`

Conventions of the embedding.

* A Go `[]string` is a `List String`; a Go `[]*T` is a `List T`, free of nil
  pointers.  In `port` slices are values; this is how `WordsInfo` and `Search`
  hand them over, each built by its own `make`/`append`.  In `port.heap` the
  same functions run over slice headers and backing arrays, so that the
  in-place `append` of `prepareImages` is visible.
* A Go `(T, error)` result is an `Except E T`, with one constructor of `E`
  per error the function can return.  An index-out-of-range runtime panic is a
  separate constructor, never confused with a returned error.
* A collaborator behind a Go interface is a record of functions.
-/

set_option linter.dupNamespace false

namespace Vocaboost

deriving instance DecidableEq for Except

/-! ## `internal/domain/word.go` -/

namespace domain

/-- The enriched record `domain.Word`. -/
structure Word where
  word : String
  definitions : List String
  examples : List String
  imageURLs : List String
deriving DecidableEq, Repr

/-- Constructor `domain.NewWord`. -/
def NewWord (word : String) (definitions examples imageURLs : List String) : Word :=
  { word := word, definitions := definitions, examples := examples, imageURLs := imageURLs }

/-- Method `Word.Definitions`. -/
def Word.Definitions (w : Word) : List String := w.definitions

/-- Method `Word.Examples`. -/
def Word.Examples (w : Word) : List String := w.examples

/-- Method `Word.ImageURLs`. -/
def Word.ImageURLs (w : Word) : List String := w.imageURLs

/-- Method `Word.Word`. -/
def Word.Word (w : Word) : String := w.word

end domain

/-! ## `internal/application/service/dictionary` -/

namespace dictionary

/-- One upstream definition with its part-of-speech tag (`DefinitionDTO`). -/
structure DefinitionDTO where
  definition : String
  partOfSpeech : String
deriving DecidableEq, Repr

/-- Dictionary output for one word (`WordInfoDTO`). -/
structure WordInfoDTO where
  word : String
  definitionsDTO : List DefinitionDTO
  examples : List String
deriving DecidableEq, Repr

/-- Method `WordInfoDTO.Word`. -/
def WordInfoDTO.Word (w : WordInfoDTO) : String := w.word

/-- Method `WordInfoDTO.Definitions`: the definition texts, tags dropped. -/
def WordInfoDTO.Definitions (w : WordInfoDTO) : List String :=
  w.definitionsDTO.map (fun d => d.definition)

/-- Method `WordInfoDTO.Examples`. -/
def WordInfoDTO.Examples (w : WordInfoDTO) : List String := w.examples

/-- Constructor `NewWordInfoDTO`. -/
def NewWordInfoDTO (word : String) (definitions : List DefinitionDTO)
    (examples : List String) : WordInfoDTO :=
  { word := word, definitionsDTO := definitions, examples := examples }

/-- Constructor `NewDefinition`. -/
def NewDefinition (definition partOfSpeech : String) : DefinitionDTO :=
  { definition := definition, partOfSpeech := partOfSpeech }

/-- One entry of the decoded `definitionsResponse.Definitions`. -/
structure definitionItem where
  Definition : String
  PartOfSpeech : String
deriving DecidableEq, Repr

/-- The decoded body of the upstream definitions call. -/
structure definitionsResponse where
  Word : String
  Definitions : List definitionItem
deriving DecidableEq, Repr

/-- The decoded body of the upstream examples call. -/
structure examplesResponse where
  Word : String
  Examples : List String
deriving DecidableEq, Repr

/-- The two upstream calls of `WordsAPI` (`definitionsAPICall`,
`examplesAPICall`): the HTTP transport and JSON decoding are the environment,
each call either fails with a message or yields a decoded body. -/
structure WordsAPI where
  definitionsAPICall : String → Except String definitionsResponse
  examplesAPICall : String → Except String examplesResponse

/-- The body of the loop of `WordsAPI.WordsInfo` for one word; an error is
its message, as `fmt.Errorf` builds it. -/
def WordsAPI.wordInfo (wa : WordsAPI) (word : String) : Except String WordInfoDTO :=
  match wa.definitionsAPICall word with
  | .error err => .error ("definition API call error: " ++ err)
  | .ok definitionsResp =>
    let definitions := definitionsResp.Definitions.map
      (fun d => NewDefinition d.Definition d.PartOfSpeech)
    match wa.examplesAPICall word with
    | .error err => .error ("example API call error: " ++ err)
    | .ok examples => .ok (NewWordInfoDTO word definitions examples.Examples)

/-- Method `WordsAPI.WordsInfo`: the words are visited in order and the first
failing upstream call aborts the batch. -/
def WordsAPI.WordsInfo (wa : WordsAPI) : List String → Except String (List WordInfoDTO)
  | [] => .ok []
  | word :: rest =>
    match wa.wordInfo word with
    | .error e => .error e
    | .ok info =>
      match wa.WordsInfo rest with
      | .error e => .error e
      | .ok infos => .ok (info :: infos)

/-- The interface `dictionary.Interface`. -/
structure Interface where
  WordsInfo : List String → Except String (List WordInfoDTO)

end dictionary

/-! ## `internal/application/service/images` -/

namespace images

/-- Image-search output for one query (`WordImagesDTO`). -/
structure WordImagesDTO where
  word : String
  urls : List String
deriving DecidableEq, Repr

/-- Method `WordImagesDTO.Word`. -/
def WordImagesDTO.Word (w : WordImagesDTO) : String := w.word

/-- Method `WordImagesDTO.Urls`. -/
def WordImagesDTO.Urls (w : WordImagesDTO) : List String := w.urls

/-- Constructor `NewWordImagesDTO`. -/
def NewWordImagesDTO (word : String) (urls : List String) : WordImagesDTO :=
  { word := word, urls := urls }

/-- The interface `images.Interface`. -/
structure Interface where
  Search : List String → Except String (List WordImagesDTO)

/-- One entry of `resp.Items` (a `customsearch.Result`), with the two fields
that `Search` reads. -/
structure Result where
  Link : String
  Mime : String
deriving DecidableEq, Repr

/-- The struct `GoogleCustomSearch`: the upstream call
`gcs.service.Cse.List()...Q(query).Do()` is the environment; for a query it
either fails with a message or yields the items of the response. -/
structure GoogleCustomSearch where
  Do : String → Except String (List Result)

/-- The inner loop of `GoogleCustomSearch.Search`: the links of the items
with an accepted MIME type are appended to `filteredLinks` one by one. -/
def filterLinks (items : List Result) : List String :=
  items.foldl
    (fun filteredLinks item =>
      if item.Mime = "image/png" ∨ item.Mime = "image/jpeg" then filteredLinks ++ [item.Link]
      else filteredLinks)
    []

/-- Method `GoogleCustomSearch.Search`: the queries are visited in order and
the first failing upstream call aborts the batch. -/
def GoogleCustomSearch.Search (gcs : GoogleCustomSearch) :
    List String → Except String (List WordImagesDTO)
  | [] => .ok []
  | word :: rest =>
    match gcs.Do word with
    | .error err => .error ("custom search call error for word \x60" ++ word ++ "\x60: " ++ err)
    | .ok items =>
      match gcs.Search rest with
      | .error e => .error e
      | .ok wordImages => .ok (NewWordImagesDTO word (filterLinks items) :: wordImages)

end images

/-! ## `internal/application/service/spacedrepetition` -/

namespace spacedrepetition

/-- The interface `spacedrepetition.Interface`. -/
structure Interface where
  UploadWords : List domain.Word → Except String Unit

/-! The declarations of the package `github.com/jomei/notionapi` that
`notion.go` fills in.  A nil pointer or nil slice is `none` or `[]`. -/

namespace notionapi

/-- The struct `notionapi.Text`. -/
structure Text where
  Content : String
  Link : Option String
deriving DecidableEq, Repr

/-- The struct `notionapi.Annotations`. -/
structure Annotations where
  Bold : Bool
  Italic : Bool
  Strikethrough : Bool
  Underline : Bool
  Code : Bool
  Color : String
deriving DecidableEq, Repr

/-- The struct `notionapi.RichText`, with the fields `notion.go` sets. -/
structure RichText where
  Text : Text
  Annotations : Option Annotations
deriving DecidableEq, Repr

/-- The struct `notionapi.BasicBlock`; its field `Type` is `BlockType` here. -/
structure BasicBlock where
  Object : String
  BlockType : String
  ID : String
  CreatedTime : Option String
  LastEditedTime : Option String
  CreatedBy : Option String
  LastEditedBy : Option String
  HasChildren : Bool
  Archived : Bool
deriving DecidableEq, Repr

/-- The struct `notionapi.FileObject`. -/
structure FileObject where
  URL : String
  ExpiryTime : Option String
deriving DecidableEq, Repr

/-- The struct `notionapi.Image`; its field `Type` is `FileType` here. -/
structure Image where
  FileType : String
  External : Option FileObject
  Caption : List RichText
  File : Option FileObject
deriving DecidableEq, Repr

/-- The three kinds of `notionapi.Block` that `notion.go` builds.  The structs
`ListItem` and `Paragraph` are spread over the arguments `RichText`,
`Children`, `Color` of their block. -/
inductive Block where
  | ImageBlock (basic : BasicBlock) (image : Image)
  | BulletedListItemBlock (basic : BasicBlock) (richText : List RichText)
      (children : List Block) (color : String)
  | ParagraphBlock (basic : BasicBlock) (richText : List RichText)
      (children : List Block) (color : String)

/-- The struct `notionapi.TitleProperty`; its field `Type` is `PropertyType`
here. -/
structure TitleProperty where
  ID : String
  PropertyType : String
  Title : List RichText
deriving DecidableEq, Repr

/-- The struct `notionapi.Parent`; its field `Type` is `ParentType` here. -/
structure Parent where
  ParentType : String
  DatabaseID : String
  PageID : String
deriving DecidableEq, Repr

/-- The struct `notionapi.PageCreateRequest`; the map `Properties` is the list
of its entries. -/
structure PageCreateRequest where
  Parent : Parent
  Properties : List (String × TitleProperty)
  Children : List Block
  Icon : Option String
  Cover : Option String

/-- Constant `notionapi.ObjectTypeBlock`. -/
def ObjectTypeBlock : String := "block"

/-- Constant `notionapi.BlockTypeImage`. -/
def BlockTypeImage : String := "image"

/-- Constant `notionapi.BlockTypeBulletedListItem`. -/
def BlockTypeBulletedListItem : String := "bulleted_list_item"

/-- Constant `notionapi.BlockTypeParagraph`. -/
def BlockTypeParagraph : String := "paragraph"

/-- Constant `notionapi.FileTypeExternal`. -/
def FileTypeExternal : String := "external"

/-- Constant `notionapi.ParentTypeDatabaseID`. -/
def ParentTypeDatabaseID : String := "database_id"

end notionapi

open notionapi

/-- The struct `Notion`: the identifier of the target database (the client is
not used by `buildPageCreateRequest`). -/
structure Notion where
  databaseID : String

/-- Function `imageBlock`. -/
def imageBlock (imageURL : String) : Block :=
  .ImageBlock
    { Object := ObjectTypeBlock
      BlockType := BlockTypeImage
      ID := ""
      CreatedTime := none
      LastEditedTime := none
      CreatedBy := none
      LastEditedBy := none
      HasChildren := false
      Archived := false }
    { FileType := FileTypeExternal
      External := some { URL := imageURL, ExpiryTime := none }
      Caption := []
      File := none }

/-- Function `definitionBlock`. -/
def definitionBlock (definition : String) : Block :=
  .BulletedListItemBlock
    { Object := ObjectTypeBlock
      BlockType := BlockTypeBulletedListItem
      ID := ""
      CreatedTime := none
      LastEditedTime := none
      CreatedBy := none
      LastEditedBy := none
      HasChildren := false
      Archived := false }
    [{ Text := { Content := definition, Link := none }, Annotations := none }]
    []
    ""

/-- Function `exampleBlock`. -/
def exampleBlock (example_ : String) : Block :=
  .ParagraphBlock
    { Object := ObjectTypeBlock
      BlockType := BlockTypeParagraph
      ID := ""
      CreatedTime := none
      LastEditedTime := none
      CreatedBy := none
      LastEditedBy := none
      HasChildren := false
      Archived := false }
    [{ Text := { Content := example_, Link := none }
       Annotations := some
        { Italic := true
          Bold := false
          Strikethrough := false
          Underline := false
          Code := false
          Color := "" } }]
    []
    ""

/-- Method `Notion.buildPageCreateRequest`: three loops append to `blocks`,
then the request is assembled. -/
def Notion.buildPageCreateRequest (n : Notion) (word : domain.Word) : PageCreateRequest :=
  let blocks : List Block := []
  let blocks := word.ImageURLs.foldl (fun blocks imageURL => blocks ++ [imageBlock imageURL]) blocks
  let blocks :=
    word.Definitions.foldl (fun blocks definition => blocks ++ [definitionBlock definition]) blocks
  let blocks := word.Examples.foldl (fun blocks ex => blocks ++ [exampleBlock ex]) blocks
  { Parent := { ParentType := ParentTypeDatabaseID, DatabaseID := n.databaseID, PageID := "" }
    Properties :=
      [("Name",
        { ID := ""
          PropertyType := ""
          Title := [{ Text := { Content := word.Word, Link := none }, Annotations := none }] })]
    Children := blocks
    Icon := none
    Cover := none }

end spacedrepetition

/-! ## `internal/application/service/textparser` -/

namespace textparser

/-- The class `\w` of Go's `regexp` syntax: `[0-9A-Za-z_]`. -/
def isWordChar (c : Char) : Bool :=
  decide (('0' ≤ c ∧ c ≤ '9') ∨ ('A' ≤ c ∧ c ≤ 'Z') ∨ c = '_' ∨ ('a' ≤ c ∧ c ≤ 'z'))

/-- Go's `unicode.IsSpace`: the White_Space property. -/
def isSpace (c : Char) : Bool :=
  let r := c.toNat
  decide ((0x09 ≤ r ∧ r ≤ 0x0d) ∨ r = 0x20 ∨ r = 0x85 ∨ r = 0xA0 ∨ r = 0x1680
    ∨ (0x2000 ≤ r ∧ r ≤ 0x200a) ∨ r = 0x2028 ∨ r = 0x2029 ∨ r = 0x202f ∨ r = 0x205f
    ∨ r = 0x3000)

/-- `regexp.MustCompile("\W").ReplaceAllString(text, " ")` on the runes of the
text: every rune outside `\w` is one match and becomes one space. -/
def replaceAllNonWord (text : List Char) : List Char :=
  text.map (fun c => if isWordChar c then c else ' ')

/-- The scan of Go's `strings.FieldsFunc`: `pending` holds, reversed, the runes
of the field that is open (empty when none is: a field opens at a rune that is
not a separator, so an open field is never empty). -/
def fieldsLoop (f : Char → Bool) : List Char → List Char → List String
  | [], pending => if pending.isEmpty then [] else [String.mk pending.reverse]
  | c :: rest, pending =>
    if f c then
      if pending.isEmpty then fieldsLoop f rest []
      else String.mk pending.reverse :: fieldsLoop f rest []
    else fieldsLoop f rest (c :: pending)

/-- Go's `strings.Fields`: the maximal runs of non-space runes, in order. -/
def Fields (text : List Char) : List String := fieldsLoop isSpace text []

/-- Method `V1.ExtractWords`; the error is always nil. -/
def ExtractWords (text : String) : Except String (List String) :=
  .ok (Fields (replaceAllNonWord text.data))

/-- The interface `textparser.Interface`. -/
structure Interface where
  ExtractWords : String → Except String (List String)

/-- The implementation `V1` of the interface. -/
def V1 : Interface := { ExtractWords := ExtractWords }

end textparser

/-! ## `internal/application/repository` -/

namespace repository

/-- Constant `knownWordsPrefix`. -/
def knownWordsPrefix : String := "k:"

/-- Constant `ignoredWordsPrefix`. -/
def ignoredWordsPrefix : String := "i:"

/-- Function `knownWordKey`. -/
def knownWordKey (key : String) : String := knownWordsPrefix ++ key

/-- Function `ignoredWordKey`. -/
def ignoredWordKey (key : String) : String := ignoredWordsPrefix ++ key

/-- The command of the redis client that `filterWords` issues: `Exists key`
answers with the number of keys found, or fails. -/
structure RedisWordsRepo where
  Exists : String → Except String Int

/-- A reachable redis server whose database holds exactly the keys `keys`. -/
def RedisWordsRepo.ofKeys (keys : List String) : RedisWordsRepo :=
  { Exists := fun key => .ok (if key ∈ keys then 1 else 0) }

/-- Method `RedisWordsRepo.filterWords`; `keys` is `words` mapped, so the two
are walked together. -/
def RedisWordsRepo.filterWords (rwr : RedisWordsRepo) :
    List String → List String → Except String (List String)
  | word :: words, key :: keys =>
    match rwr.Exists key with
    | .error err => .error ("\x60Exists\x60 operation error: " ++ err)
    | .ok count =>
      match rwr.filterWords words keys with
      | .error err => .error err
      | .ok filteredWords =>
        if count < 1 then .ok (word :: filteredWords) else .ok filteredWords
  | _, _ => .ok []

/-- Method `RedisWordsRepo.FilterKnownWords`. -/
def RedisWordsRepo.FilterKnownWords (rwr : RedisWordsRepo) (words : List String) :
    Except String (List String) :=
  rwr.filterWords words (words.map knownWordKey)

/-- Method `RedisWordsRepo.FilterIgnoredWords`. -/
def RedisWordsRepo.FilterIgnoredWords (rwr : RedisWordsRepo) (words : List String) :
    Except String (List String) :=
  rwr.filterWords words (words.map ignoredWordKey)

/-- The methods of `repository.Interface` that the filter stage calls. -/
structure Interface where
  FilterKnownWords : List String → Except String (List String)
  FilterIgnoredWords : List String → Except String (List String)

/-- The redis repository behind the interface. -/
def RedisWordsRepo.toInterface (rwr : RedisWordsRepo) : Interface :=
  { FilterKnownWords := rwr.FilterKnownWords, FilterIgnoredWords := rwr.FilterIgnoredWords }

/-- A Go `map[string]string`: the value stored under each key. -/
abbrev GoMap := String → Option String

/-- The empty map of `make(map[string]string, n)`. -/
def GoMap.empty : GoMap := fun _ => none

/-- The assignment `m[k] = v`. -/
def GoMap.set (m : GoMap) (k v : String) : GoMap :=
  fun key => if key = k then some v else m key

/-- The redis server as the client sees it: the value stored under each key,
and the error every command fails with while the server cannot be reached. -/
structure RedisClient where
  keyspace : GoMap
  failure : Option String

/-- The redis command `MSET`: every key of `values` is set to its value. -/
def RedisClient.MSet (client : RedisClient) (values : GoMap) : Except String RedisClient :=
  match client.failure with
  | some err => .error err
  | none =>
    .ok { client with
          keyspace := fun key =>
            match values key with
            | some v => some v
            | none => client.keyspace key }

/-- The redis command `EXISTS key`: the number of keys found. -/
def RedisClient.Exists (client : RedisClient) (key : String) : Except String Int :=
  match client.failure with
  | some err => .error err
  | none => .ok (if (client.keyspace key).isSome then 1 else 0)

/-- The repository over a client in a given state (`NewRedisWordsRepo`). -/
def NewRedisWordsRepo (client : RedisClient) : RedisWordsRepo :=
  { Exists := client.Exists }

/-- Method `RedisWordsRepo.SaveAsKnown`, as a transition of the state of the
client: on success the state after the call, on failure the error. -/
def SaveAsKnown (client : RedisClient) (words : List String) : Except String RedisClient :=
  if words.length = 0 then .ok client
  else
    let values := words.foldl (fun values word => values.set (knownWordKey word) word)
      GoMap.empty
    match client.MSet values with
    | .error err => .error ("redis MSet operation error: " ++ err)
    | .ok client => .ok client

/-- Method `RedisWordsRepo.SaveAsIgnored`, as a transition of the state of the
client. -/
def SaveAsIgnored (client : RedisClient) (words : List String) : Except String RedisClient :=
  if words.length = 0 then .ok client
  else
    let values := words.foldl (fun values word => values.set (ignoredWordKey word) word)
      GoMap.empty
    match client.MSet values with
    | .error err => .error ("redis MSet operation error: " ++ err)
    | .ok client => .ok client

end repository

/-! ## `internal/port/gin_http.go`: building the Word records -/

namespace port

open domain dictionary images

/-- Constant `maxDefinitions`. -/
def maxDefinitions : Nat := 4

/-- Constant `maxImages`. -/
def maxImages : Nat := 8

/-- Constant `maxExamples`. -/
def maxExamples : Nat := 4

/-- The sentinel error `errBadImagesCount`, the only error of `prepareImages`. -/
inductive ImagesError where
  | errBadImagesCount
deriving DecidableEq, Repr

/-- The ways `prepareWords` stops without a Word list: its two wrapped errors
and the runtime panic of an index expression past the end of a list. -/
inductive PrepareFailure where
  /-- Wraps `errBadImageAndDefinitionWord` with both offending words. -/
  | errBadImageAndDefinitionWord (imagesWord definitionsWord : String)
  /-- Wraps the error of `prepareImages` with the word being prepared. -/
  | preparingImages (word : String) (cause : ImagesError)
  /-- Runtime panic: index out of range `index` with length `length`. -/
  | panicIndexOutOfRange (index length : Nat)
deriving DecidableEq, Repr

/-- Function `prepareImages` on slices read as values: the result of
`append(normal[:k], clarified[:k]...)` at the time of return, with
`k = maxImages / 2`, after checking that both lists have `k` entries.  What
the `append` does to the backing array of `normal` is in
`heap.prepareImages`. -/
def prepareImages (normalImages clarifiedImages : List String) : Except ImagesError (List String) :=
  let requiredImagesCountPerType := maxImages / 2
  if normalImages.length < requiredImagesCountPerType
      ∨ clarifiedImages.length < requiredImagesCountPerType then
    .error .errBadImagesCount
  else
    .ok (normalImages.take requiredImagesCountPerType
          ++ clarifiedImages.take requiredImagesCountPerType)

/-- The body of the loop of `prepareWords` at index `i`. -/
def prepareWord (wordsDefinitions : List WordInfoDTO)
    (wordsImages wordsImagesClarified : List WordImagesDTO) (i : Nat) :
    Except PrepareFailure Word :=
  match wordsDefinitions[i]? with
  | none => .error (.panicIndexOutOfRange i wordsDefinitions.length)
  | some definition =>
    match wordsImages[i]? with
    | none => .error (.panicIndexOutOfRange i wordsImages.length)
    | some wordImages =>
      match wordsImagesClarified[i]? with
      | none => .error (.panicIndexOutOfRange i wordsImagesClarified.length)
      | some wordImagesClarified =>
        if definition.Word ≠ wordImages.Word then
          .error (.errBadImageAndDefinitionWord wordImages.Word definition.Word)
        else
          let definitions := definition.Definitions
          let definitions :=
            if definitions.length > maxDefinitions then definitions.take maxDefinitions
            else definitions
          let examples := definition.Examples
          let examples :=
            if examples.length > maxExamples then examples.take maxExamples else examples
          match prepareImages wordImages.Urls wordImagesClarified.Urls with
          | .error err => .error (.preparingImages definition.Word err)
          | .ok imageURLs => .ok (NewWord definition.Word definitions examples imageURLs)

/-- The loop `for i := ...; i < len(unknownWords); i++` of `prepareWords`,
entered at index `i` with `n` iterations left; the first failure ends it. -/
def prepareWordsLoop (wordsDefinitions : List WordInfoDTO)
    (wordsImages wordsImagesClarified : List WordImagesDTO) :
    Nat → Nat → Except PrepareFailure (List Word)
  | _, 0 => .ok []
  | i, n + 1 =>
    match prepareWord wordsDefinitions wordsImages wordsImagesClarified i with
    | .error e => .error e
    | .ok w =>
      match prepareWordsLoop wordsDefinitions wordsImages wordsImagesClarified (i + 1) n with
      | .error e => .error e
      | .ok ws => .ok (w :: ws)

/-- Function `prepareWords`. -/
def prepareWords (unknownWords : List String) (wordsDefinitions : List WordInfoDTO)
    (wordsImages wordsImagesClarified : List WordImagesDTO) :
    Except PrepareFailure (List Word) :=
  prepareWordsLoop wordsDefinitions wordsImages wordsImagesClarified 0 unknownWords.length

/-- The Word that `prepareWords` builds from aligned entries: the word of the
dictionary entry, the first four definitions and examples, the first four
plain URLs followed by the first four clarified URLs. -/
def expectedWord (d : WordInfoDTO) (p c : WordImagesDTO) : Word :=
  { word := d.word
    definitions := d.Definitions.take 4
    examples := d.examples.take 4
    imageURLs := p.urls.take 4 ++ c.urls.take 4 }

/-! ## `internal/port/gin_http.go`: the handlers -/

/-- Go's `strings.ToLower` on one rune of an ASCII string: `A`..`Z` move to
`a`..`z`.  The handler applies it to the tokens of `ExtractWords` only, whose
runes are all in `[0-9A-Za-z_]`. -/
def lowerRune (c : Char) : Char :=
  if 'A' ≤ c ∧ c ≤ 'Z' then Char.ofNat (c.toNat + 32) else c

/-- Go's `strings.ToLower` (on ASCII strings). -/
def ToLower (s : String) : String := String.mk (s.data.map lowerRune)

/-- The value of a run of decimal digits, `none` when the run is empty or
holds a rune that is not a decimal digit. -/
def digitsValue : List Char → Option Nat
  | [] => none
  | cs => cs.foldl
      (fun acc c =>
        match acc with
        | none => none
        | some n => if '0' ≤ c ∧ c ≤ '9' then some (n * 10 + (c.toNat - 48)) else none)
      (some 0)

/-- Go's `strconv.Atoi` with a 64-bit `int`: an optional sign, then decimal
digits only, and the value must fit `int64`.  The result is `none` when Go
returns a non-nil error (syntax or range). -/
def Atoi (s : String) : Option Int :=
  match s.data with
  | '-' :: body =>
    match digitsValue body with
    | none => none
    | some un => if un > 2 ^ 63 then none else some (-(un : Int))
  | '+' :: body =>
    match digitsValue body with
    | none => none
    | some un => if un ≥ 2 ^ 63 then none else some (un : Int)
  | body =>
    match digitsValue body with
    | none => none
    | some un => if un ≥ 2 ^ 63 then none else some (un : Int)

/-- The loop of `funk.UniqString`: a value already in `seen` is skipped, a new
one is recorded and appended to the results. -/
def uniqStringLoop : List String → List String → List String
  | _, [] => []
  | seen, v :: rest =>
    if v ∈ seen then uniqStringLoop seen rest else v :: uniqStringLoop (v :: seen) rest

/-- Function `funk.UniqString`: the first occurrence of every value, in order. -/
def UniqString (a : List String) : List String := uniqStringLoop [] a

/-- The predicate handed to `funk.FilterString` in `SplitTextToWords`. -/
def keepWord (w : String) : Bool :=
  match Atoi w with
  | some _ => false
  | none => decide (w.utf8ByteSize > 1)

/-- Constant `userErrSomethingWentWrong`. -/
def userErrSomethingWentWrong : String := "something went wrong"

/-- What a handler writes to the client: `context.HTML` with the name of the
template and the word list among its data, or `context.String`. -/
inductive Response where
  | HTML (code : Nat) (name : String) (words : List String)
  | String (code : Nat) (body : String)
deriving DecidableEq, Repr

/-- The struct `HTTPHandler`. -/
structure HTTPHandler where
  textParser : textparser.Interface
  wordsRepo : repository.Interface
  spacedRepetitionService : spacedrepetition.Interface
  dictionary : dictionary.Interface
  images : images.Interface

/-- Method `HTTPHandler.SplitTextToWords`, from the bound form field `text`
on.  `funk.Map` over a `[]string` with a `func(string) string` yields a
`[]string`, so its type assertion holds. -/
def HTTPHandler.SplitTextToWords (hh : HTTPHandler) (text : String) : Response :=
  match hh.textParser.ExtractWords text with
  | .error _ => .String 500 userErrSomethingWentWrong
  | .ok words =>
    let words := words.map ToLower
    let words := words.filter keepWord
    let words := UniqString words
    match hh.wordsRepo.FilterKnownWords words with
    | .error _ => .String 500 userErrSomethingWentWrong
    | .ok words =>
      match hh.wordsRepo.FilterIgnoredWords words with
      | .error _ => .String 500 userErrSomethingWentWrong
      | .ok words => .HTML 200 "words_list.html" words

/-- What one run of `UploadToSpacedRepetitionService` leaves behind: the
response written (none when the handler panicked before writing one) and the
arguments of the calls made to `UploadWords`, in order. -/
structure UploadRun where
  response : Option Response
  uploadCalls : List (List Word)
deriving DecidableEq, Repr

/-- Method `HTTPHandler.UploadToSpacedRepetitionService`, from the bound form
field `unknown_words` on. -/
def HTTPHandler.UploadToSpacedRepetitionService (hh : HTTPHandler)
    (unknownWordsText : String) : UploadRun :=
  match hh.textParser.ExtractWords unknownWordsText with
  | .error _ => ⟨some (.String 500 userErrSomethingWentWrong), []⟩
  | .ok unknownWords =>
    match hh.dictionary.WordsInfo unknownWords with
    | .error _ => ⟨some (.String 500 userErrSomethingWentWrong), []⟩
    | .ok wordsDefinitions =>
      match hh.images.Search unknownWords with
      | .error _ => ⟨some (.String 500 userErrSomethingWentWrong), []⟩
      | .ok wordsImages =>
        match hh.images.Search (unknownWords.map (fun word => word ++ " meaning")) with
        | .error _ => ⟨some (.String 500 userErrSomethingWentWrong), []⟩
        | .ok wordsImagesClarified =>
          match prepareWords unknownWords wordsDefinitions wordsImages wordsImagesClarified with
          | .error (.panicIndexOutOfRange _ _) => ⟨none, []⟩
          | .error _ => ⟨some (.String 500 userErrSomethingWentWrong), []⟩
          | .ok words =>
            match hh.spacedRepetitionService.UploadWords words with
            | .error _ => ⟨some (.String 500 userErrSomethingWentWrong), [words]⟩
            | .ok _ => ⟨some (.HTML 200 "result.html" []), [words]⟩

end port

end Vocaboost

/-! ## `internal/port/gin_http.go`: `prepareWords` over backing arrays -/

namespace Vocaboost

namespace port

namespace heap

/-- The backing arrays of the `[]string` values in play; the address of an
array is its index. -/
abbrev Heap := List (List String)

/-- A Go slice header: the backing array, the index of the first element in
it, the length and the capacity. -/
structure Slice where
  array : Nat
  offset : Nat
  len : Nat
  cap : Nat
deriving DecidableEq, Repr

/-- The elements `s[0]`, ..., `s[len(s)-1]` of a slice. -/
def read (h : Heap) (s : Slice) : List String :=
  ((h.getD s.array []).drop s.offset).take s.len

/-- The cells of a backing array after `vals` is copied into it from index
`pos` on. -/
def store (cells : List String) (pos : Nat) (vals : List String) : List String :=
  cells.take pos ++ vals ++ cells.drop (pos + vals.length)

/-- The reslice `s[:n]`: same array, same capacity, length `n`. -/
def Slice.upTo (s : Slice) (n : Nat) : Slice := { s with len := n }

/-- Go's built-in `append(s, vals...)`.  When the capacity of `s` holds the
new elements they are written into the backing array of `s`, behind its last
element; otherwise a new array is allocated for the old and the new elements
(its spare capacity, which nothing here uses, is left out). -/
def goAppend (h : Heap) (s : Slice) (vals : List String) : Heap × Slice :=
  if s.len + vals.length ≤ s.cap then
    (h.set s.array (store (h.getD s.array []) (s.offset + s.len) vals),
      { s with len := s.len + vals.length })
  else
    (h ++ [read h s ++ vals],
      { array := h.length, offset := 0, len := s.len + vals.length,
        cap := s.len + vals.length })

/-- The struct `dictionary.WordInfoDTO`, its `examples` a slice header. -/
structure WordInfoDTO where
  word : String
  definitionsDTO : List dictionary.DefinitionDTO
  examples : Slice
deriving DecidableEq, Repr

/-- The struct `images.WordImagesDTO`, its `urls` a slice header. -/
structure WordImagesDTO where
  word : String
  urls : Slice
deriving DecidableEq, Repr

/-- The struct `domain.Word`.  Its `definitions` come from
`WordInfoDTO.Definitions`, which copies them into a slice of its own, so they
are values; `examples` and `imageURLs` are slice headers. -/
structure Word where
  word : String
  definitions : List String
  examples : Slice
  imageURLs : Slice
deriving DecidableEq, Repr

/-- The Word as a reader sees it in a given state of the backing arrays. -/
def Word.read (h : Heap) (w : Word) : domain.Word :=
  { word := w.word
    definitions := w.definitions
    examples := heap.read h w.examples
    imageURLs := heap.read h w.imageURLs }

/-- Function `prepareImages`:
`append(normalImages[:k], clarifiedImages[:k]...)` with `k = maxImages / 2`. -/
def prepareImages (h : Heap) (normalImages clarifiedImages : Slice) :
    Except ImagesError (Heap × Slice) :=
  let requiredImagesCountPerType := maxImages / 2
  if normalImages.len < requiredImagesCountPerType
      ∨ clarifiedImages.len < requiredImagesCountPerType then
    .error .errBadImagesCount
  else
    .ok (goAppend h (normalImages.upTo requiredImagesCountPerType)
          (read h (clarifiedImages.upTo requiredImagesCountPerType)))

/-- The body of the loop of `prepareWords` at index `i`. -/
def prepareWord (h : Heap) (wordsDefinitions : List WordInfoDTO)
    (wordsImages wordsImagesClarified : List WordImagesDTO) (i : Nat) :
    Except PrepareFailure (Heap × Word) :=
  match wordsDefinitions[i]? with
  | none => .error (.panicIndexOutOfRange i wordsDefinitions.length)
  | some definition =>
    match wordsImages[i]? with
    | none => .error (.panicIndexOutOfRange i wordsImages.length)
    | some wordImages =>
      match wordsImagesClarified[i]? with
      | none => .error (.panicIndexOutOfRange i wordsImagesClarified.length)
      | some wordImagesClarified =>
        if definition.word ≠ wordImages.word then
          .error (.errBadImageAndDefinitionWord wordImages.word definition.word)
        else
          let definitions := definition.definitionsDTO.map (fun d => d.definition)
          let definitions :=
            if definitions.length > maxDefinitions then definitions.take maxDefinitions
            else definitions
          let examples := definition.examples
          let examples := if examples.len > maxExamples then examples.upTo maxExamples else examples
          match prepareImages h wordImages.urls wordImagesClarified.urls with
          | .error err => .error (.preparingImages definition.word err)
          | .ok (h, imageURLs) =>
            .ok (h, { word := definition.word, definitions := definitions,
                      examples := examples, imageURLs := imageURLs })

/-- The loop of `prepareWords`, entered at index `i` with `n` iterations left,
the backing arrays being in state `h`. -/
def prepareWordsLoop (wordsDefinitions : List WordInfoDTO)
    (wordsImages wordsImagesClarified : List WordImagesDTO) :
    Heap → Nat → Nat → Except PrepareFailure (Heap × List Word)
  | h, _, 0 => .ok (h, [])
  | h, i, n + 1 =>
    match prepareWord h wordsDefinitions wordsImages wordsImagesClarified i with
    | .error e => .error e
    | .ok (h, w) =>
      match prepareWordsLoop wordsDefinitions wordsImages wordsImagesClarified h (i + 1) n with
      | .error e => .error e
      | .ok (h, ws) => .ok (h, w :: ws)

/-- Function `prepareWords`: the Words it returns and the state it leaves the
backing arrays in. -/
def prepareWords (h : Heap) (unknownWords : List String) (wordsDefinitions : List WordInfoDTO)
    (wordsImages wordsImagesClarified : List WordImagesDTO) :
    Except PrepareFailure (Heap × List Word) :=
  prepareWordsLoop wordsDefinitions wordsImages wordsImagesClarified h 0 unknownWords.length

/-- The Words that the caller of `prepareWords` reads once it has returned. -/
def prepareWordsRead (h : Heap) (unknownWords : List String)
    (wordsDefinitions : List WordInfoDTO)
    (wordsImages wordsImagesClarified : List WordImagesDTO) :
    Except PrepareFailure (List domain.Word) :=
  match prepareWords h unknownWords wordsDefinitions wordsImages wordsImagesClarified with
  | .error e => .error e
  | .ok (h, ws) => .ok (ws.map (Word.read h))

end heap

end port

end Vocaboost

/-! ## The reference of the filter stage, from the words of the specification -/

namespace Vocaboost

namespace reference

/-- The distinct entries of a list, in the order of their first occurrence. -/
def distinct : List String → List String
  | [] => []
  | v :: rest => v :: (distinct rest).filter (fun y => decide (y ≠ v))

/-- Whether a string parses as a base-10 integer, in the sense of the
specification and not of any machine integer type: an optional sign followed
by one or more decimal digits, however many. -/
def parsesAsInteger (w : String) : Bool :=
  let digits :=
    match w.data with
    | '+' :: ds => ds
    | '-' :: ds => ds
    | ds => ds
  !digits.isEmpty && digits.all (fun c => decide ('0' ≤ c ∧ c ≤ '9'))

/-- The reference candidate list, following the specification and not the
handler: the distinct lowercased tokens of the text, in first-occurrence
order, that have more than one character, do not parse as a base-10 integer,
and are in neither the Known nor the Ignored set.  A token is in the Known
set when the key `k:<token>` is stored, in the Ignored set when `i:<token>`
is. -/
def prepareCandidates (keys : List String) (text : String) : List String :=
  (distinct ((textparser.Fields (textparser.replaceAllNonWord text.data)).map port.ToLower)).filter
    (fun w =>
      decide (w.length > 1) && !parsesAsInteger w
        && decide (repository.knownWordKey w ∉ keys)
        && decide (repository.ignoredWordKey w ∉ keys))

end reference

end Vocaboost

/-! ## Concrete batches used to evaluate the embedding -/

namespace Vocaboost

namespace scenario

open dictionary images domain

/-- A dictionary entry for `ship` with 5 definitions and 6 examples. -/
def shipLong : WordInfoDTO :=
  ⟨"ship", [⟨"d1", "noun"⟩, ⟨"d2", "noun"⟩, ⟨"d3", "verb"⟩, ⟨"d4", "verb"⟩, ⟨"d5", "verb"⟩],
    ["e1", "e2", "e3", "e4", "e5", "e6"]⟩

/-- Scenario S3: the dictionary entry for `ship`. -/
def shipInfo : WordInfoDTO :=
  ⟨"ship", [⟨"a vessel", "noun"⟩, ⟨"to send", "verb"⟩], ["The ship sailed."]⟩

/-- Scenario S3: five plain image URLs for `ship`. -/
def shipPlain : WordImagesDTO := ⟨"ship", ["p1", "p2", "p3", "p4", "p5"]⟩

/-- Scenario S3: four clarified image URLs for `ship meaning`. -/
def shipClarified : WordImagesDTO := ⟨"ship meaning", ["c1", "c2", "c3", "c4"]⟩

/-- Six clarified image URLs for `ship meaning`. -/
def shipClarifiedLong : WordImagesDTO :=
  ⟨"ship meaning", ["c1", "c2", "c3", "c4", "c5", "c6"]⟩

/-- Scenario S4: the dictionary answers `run`, `jumps` for `run`, `jump`. -/
def driftInfos : List WordInfoDTO := [⟨"run", [], []⟩, ⟨"jumps", [], []⟩]

/-- Plain images for `run`, `jump`, four URLs each. -/
def runJumpPlain : List WordImagesDTO :=
  [⟨"run", ["p1", "p2", "p3", "p4"]⟩, ⟨"jump", ["q1", "q2", "q3", "q4"]⟩]

/-- Plain images for `run`, `jump`, only three URLs for `run`. -/
def runJumpPlainShort : List WordImagesDTO :=
  [⟨"run", ["p1", "p2", "p3"]⟩, ⟨"jump", ["q1", "q2", "q3", "q4"]⟩]

/-- Clarified images for `run meaning`, `jump meaning`, four URLs each. -/
def runJumpClarified : List WordImagesDTO :=
  [⟨"run meaning", ["c1", "c2", "c3", "c4"]⟩, ⟨"jump meaning", ["r1", "r2", "r3", "r4"]⟩]

/-- Scenario S5: three plain image URLs for `x`. -/
def xPlainShort : WordImagesDTO := ⟨"x", ["p1", "p2", "p3"]⟩

/-- Four clarified image URLs for `x meaning`. -/
def xClarified : WordImagesDTO := ⟨"x meaning", ["c1", "c2", "c3", "c4"]⟩

/-- A dictionary entry for `x`. -/
def xInfo : WordInfoDTO := ⟨"x", [⟨"a letter", "noun"⟩], []⟩

/-- Scenario S4 wired into a handler: the dictionary drifts, the image search
answers the plain and the clarified queries with four URLs each. -/
def driftHandler : port.HTTPHandler :=
  { textParser := textparser.V1
    wordsRepo := (repository.RedisWordsRepo.ofKeys []).toInterface
    spacedRepetitionService := ⟨fun _ => .ok ()⟩
    dictionary := ⟨fun _ => .ok driftInfos⟩
    images := ⟨fun queries =>
      if queries = ["run", "jump"] then .ok runJumpPlain else .ok runJumpClarified⟩ }

/-- A handler over the real dictionary client `WordsAPI`, whose upstream knows
two definitions and one example for every word, and an image search with four
URLs for every query. -/
def fullHandler : port.HTTPHandler :=
  { textParser := textparser.V1
    wordsRepo := (repository.RedisWordsRepo.ofKeys []).toInterface
    spacedRepetitionService := ⟨fun _ => .ok ()⟩
    dictionary := ⟨WordsAPI.WordsInfo
      { definitionsAPICall := fun word =>
          .ok ⟨word, [⟨"first sense", "noun"⟩, ⟨"second sense", "verb"⟩]⟩
        examplesAPICall := fun word => .ok ⟨word, ["an example"]⟩ }⟩
    images := ⟨fun queries => .ok (queries.map (fun q => ⟨q, ["u1", "u2", "u3", "u4"]⟩))⟩ }

/-- Scenario S1 wired into a handler: the store knows `fox`, the other
collaborators are those of `fullHandler`. -/
def knownFoxHandler : port.HTTPHandler :=
  { fullHandler with wordsRepo := (repository.RedisWordsRepo.ofKeys ["k:fox"]).toInterface }

/-- A handler whose store knows `fox` and ignores `the`. -/
def knownIgnoredHandler : port.HTTPHandler :=
  { fullHandler with
    wordsRepo := (repository.RedisWordsRepo.ofKeys ["k:fox", "i:the"]).toInterface }

/-- An image search upstream: for `ship` a PNG, a GIF, a JPEG, an upper-case
`IMAGE/PNG` and a WebP item; for every other query one JPEG item. -/
def searchUpstream : GoogleCustomSearch :=
  { Do := fun query =>
      if query = "ship" then
        .ok [⟨"l1", "image/png"⟩, ⟨"l2", "image/gif"⟩, ⟨"l3", "image/jpeg"⟩,
             ⟨"l4", "IMAGE/PNG"⟩, ⟨"l5", "image/webp"⟩]
      else .ok [⟨"m1", "image/jpeg"⟩] }

/-- A reachable redis server that knows `cat` and ignores `the`. -/
def catClient : repository.RedisClient :=
  { keyspace := (repository.GoMap.empty.set "k:cat" "cat").set "i:the" "the"
    failure := none }

/-- Four backing arrays: eight plain URLs, two lists of four clarified URLs,
one example. -/
def sharedHeap : port.heap.Heap :=
  [["p1", "p2", "p3", "p4", "p5", "p6", "p7", "p8"], ["c1", "c2", "c3", "c4"],
   ["k1", "k2", "k3", "k4"], ["The ship sailed."]]

/-- The dictionary entry for `ship`, its example in array 3. -/
def shipInfoRef : port.heap.WordInfoDTO :=
  ⟨"ship", [⟨"a vessel", "noun"⟩, ⟨"to send", "verb"⟩], ⟨3, 0, 1, 1⟩⟩

/-- The plain images for `ship`: all of array 0, length and capacity 8. -/
def shipPlainRef : port.heap.WordImagesDTO := ⟨"ship", ⟨0, 0, 8, 8⟩⟩

/-- Clarified images for `ship meaning`: array 1. -/
def shipClarifiedRef : port.heap.WordImagesDTO := ⟨"ship meaning", ⟨1, 0, 4, 4⟩⟩

/-- Other clarified images for `ship meaning`: array 2. -/
def shipClarifiedOtherRef : port.heap.WordImagesDTO := ⟨"ship meaning", ⟨2, 0, 4, 4⟩⟩

/-- Three backing arrays: one array with the plain URLs of `run` followed by
those of `jump`, and the clarified URLs of each. -/
def batchHeap : port.heap.Heap :=
  [["p1", "p2", "p3", "p4", "p5", "q1", "q2", "q3", "q4", "q5"], ["c1", "c2", "c3", "c4"],
   ["r1", "r2", "r3", "r4"]]

/-- The plain images of `run` and of `jump` as the two halves of array 0: the
first half has the capacity of the whole array. -/
def batchPlainRefs : List port.heap.WordImagesDTO :=
  [⟨"run", ⟨0, 0, 5, 10⟩⟩, ⟨"jump", ⟨0, 5, 5, 5⟩⟩]

/-- The clarified images of `run meaning` and `jump meaning`. -/
def batchClarifiedRefs : List port.heap.WordImagesDTO :=
  [⟨"run meaning", ⟨1, 0, 4, 4⟩⟩, ⟨"jump meaning", ⟨2, 0, 4, 4⟩⟩]

/-- The dictionary entries of `run` and `jump`, without examples. -/
def batchInfoRefs : List port.heap.WordInfoDTO :=
  [⟨"run", [], ⟨0, 0, 0, 0⟩⟩, ⟨"jump", [], ⟨0, 0, 0, 0⟩⟩]

end scenario

end Vocaboost

/-! ## Properties of `prepareImages` and `prepareWords` -/

namespace Vocaboost

namespace port

open domain dictionary images

theorem prepareImages_eq_ok_iff (normalImages clarifiedImages urls : List String) :
    prepareImages normalImages clarifiedImages = .ok urls ↔
      4 ≤ normalImages.length ∧ 4 ≤ clarifiedImages.length
        ∧ urls = normalImages.take 4 ++ clarifiedImages.take 4 := by
  unfold prepareImages
  simp only [maxImages]
  by_cases h : normalImages.length < 8 / 2 ∨ clarifiedImages.length < 8 / 2
  · rw [if_pos h]
    constructor
    · intro h'; cases h'
    · rintro ⟨h1, h2, -⟩; omega
  · rw [if_neg h]
    constructor
    · intro h'
      injection h' with h'
      exact ⟨by omega, by omega, h'.symm⟩
    · rintro ⟨-, -, rfl⟩; rfl

theorem prepareImages_eq_error_iff (normalImages clarifiedImages : List String) (e : ImagesError) :
    prepareImages normalImages clarifiedImages = .error e ↔
      (normalImages.length < 4 ∨ clarifiedImages.length < 4) := by
  unfold prepareImages
  simp only [maxImages]
  by_cases h : normalImages.length < 8 / 2 ∨ clarifiedImages.length < 8 / 2
  · rw [if_pos h]
    cases e
    constructor
    · intro _; omega
    · intro _; rfl
  · rw [if_neg h]
    constructor
    · intro h'; cases h'
    · intro h'; omega

theorem truncate_eq_take (l : List String) (n : Nat) :
    (if l.length > n then l.take n else l) = l.take n := by
  split
  · rfl
  · rw [List.take_of_length_le (by omega)]

/-- The loop body on entries that are all present. -/
theorem prepareWord_of_entries {D : List WordInfoDTO} {Ip Ic : List WordImagesDTO} {i : Nat}
    {d : WordInfoDTO} {p c : WordImagesDTO}
    (hd : D[i]? = some d) (hp : Ip[i]? = some p) (hc : Ic[i]? = some c) :
    prepareWord D Ip Ic i =
      if d.word ≠ p.word then .error (.errBadImageAndDefinitionWord p.word d.word)
      else if p.urls.length < 4 ∨ c.urls.length < 4 then
        .error (.preparingImages d.word .errBadImagesCount)
      else .ok (expectedWord d p c) := by
  unfold prepareWord
  simp only [hd, hp, hc, WordInfoDTO.Word, WordImagesDTO.Word, WordImagesDTO.Urls,
    WordInfoDTO.Examples, maxDefinitions, maxExamples, truncate_eq_take]
  by_cases hw : d.word ≠ p.word
  · rw [if_pos hw, if_pos hw]
  · rw [if_neg hw, if_neg hw]
    by_cases hu : p.urls.length < 4 ∨ c.urls.length < 4
    · rw [if_pos hu]
      have := (prepareImages_eq_error_iff p.urls c.urls .errBadImagesCount).mpr hu
      rw [this]
    · rw [if_neg hu]
      have := (prepareImages_eq_ok_iff p.urls c.urls _).mpr ⟨by omega, by omega, rfl⟩
      rw [this]
      rfl

theorem prepareWord_eq_ok {D : List WordInfoDTO} {Ip Ic : List WordImagesDTO} {i : Nat}
    {w : Word} (h : prepareWord D Ip Ic i = .ok w) :
    ∃ d p c, D[i]? = some d ∧ Ip[i]? = some p ∧ Ic[i]? = some c ∧ d.word = p.word
      ∧ 4 ≤ p.urls.length ∧ 4 ≤ c.urls.length ∧ w = expectedWord d p c := by
  cases hd : D[i]? with
  | none => unfold prepareWord at h; simp [hd] at h
  | some d =>
    cases hp : Ip[i]? with
    | none => unfold prepareWord at h; simp [hd, hp] at h
    | some p =>
      cases hc : Ic[i]? with
      | none => unfold prepareWord at h; simp [hd, hp, hc] at h
      | some c =>
        rw [prepareWord_of_entries hd hp hc] at h
        refine ⟨d, p, c, rfl, rfl, rfl, ?_⟩
        by_cases hw : d.word ≠ p.word
        · rw [if_pos hw] at h; cases h
        · rw [if_neg hw] at h
          by_cases hu : p.urls.length < 4 ∨ c.urls.length < 4
          · rw [if_pos hu] at h; cases h
          · rw [if_neg hu] at h
            injection h with h
            exact ⟨not_not.mp hw, by omega, by omega, h.symm⟩

/-- A successful run of the loop yields one Word per iteration, the `j`-th of
them built by the loop body at index `i + j`. -/
theorem prepareWordsLoop_eq_ok {D : List WordInfoDTO} {Ip Ic : List WordImagesDTO} :
    ∀ (n i : Nat) (ws : List Word), prepareWordsLoop D Ip Ic i n = .ok ws →
      ws.length = n ∧ ∀ j, j < n → ∃ w, ws[j]? = some w ∧ prepareWord D Ip Ic (i + j) = .ok w
  | 0, i, ws, h => by
    simp only [prepareWordsLoop] at h
    injection h with h
    subst h
    exact ⟨rfl, fun j hj => absurd hj (Nat.not_lt_zero j)⟩
  | n + 1, i, ws, h => by
    simp only [prepareWordsLoop] at h
    cases hw : prepareWord D Ip Ic i with
    | error e => rw [hw] at h; cases h
    | ok w =>
      rw [hw] at h
      cases hr : prepareWordsLoop D Ip Ic (i + 1) n with
      | error e => rw [hr] at h; cases h
      | ok rest =>
        rw [hr] at h
        injection h with h
        subst h
        obtain ⟨hlen, hrest⟩ := prepareWordsLoop_eq_ok n (i + 1) rest hr
        refine ⟨by simp [hlen], ?_⟩
        intro j hj
        cases j with
        | zero => exact ⟨w, by simp, hw⟩
        | succ j =>
          obtain ⟨w', hw', hpw⟩ := hrest j (by omega)
          refine ⟨w', by simpa using hw', ?_⟩
          have : i + (j + 1) = i + 1 + j := by omega
          rw [this]; exact hpw

/-- The loop stops at the first index whose body fails, with that failure. -/
theorem prepareWordsLoop_first_failure {D : List WordInfoDTO} {Ip Ic : List WordImagesDTO} :
    ∀ (n i k : Nat) (e : PrepareFailure), k < n →
      (∀ j, j < k → ∃ w, prepareWord D Ip Ic (i + j) = .ok w) →
      prepareWord D Ip Ic (i + k) = .error e →
      prepareWordsLoop D Ip Ic i n = .error e
  | 0, _, _, _, hk, _, _ => absurd hk (Nat.not_lt_zero _)
  | n + 1, i, 0, e, _, _, he => by
    simp only [prepareWordsLoop]
    rw [Nat.add_zero] at he
    rw [he]
  | n + 1, i, k + 1, e, hk, hok, he => by
    simp only [prepareWordsLoop]
    obtain ⟨w, hw⟩ := hok 0 (by omega)
    rw [Nat.add_zero] at hw
    rw [hw]
    have hrec := prepareWordsLoop_first_failure n (i + 1) k e (by omega)
      (fun j hj => by
        obtain ⟨w', hw'⟩ := hok (j + 1) (by omega)
        exact ⟨w', by rw [show i + 1 + j = i + (j + 1) by omega]; exact hw'⟩)
      (by rw [show i + 1 + k = i + (k + 1) by omega]; exact he)
    rw [hrec]

/-- Every index either has a first failing predecessor or all indices before
it succeed. -/
theorem prepareWord_first_failure_exists {D : List WordInfoDTO} {Ip Ic : List WordImagesDTO}
    (i : Nat) : ∀ (k : Nat) (e : PrepareFailure), prepareWord D Ip Ic (i + k) = .error e →
      ∃ k0 e0, k0 ≤ k ∧ prepareWord D Ip Ic (i + k0) = .error e0
        ∧ ∀ j, j < k0 → ∃ w, prepareWord D Ip Ic (i + j) = .ok w := by
  intro k
  induction k using Nat.strong_induction_on with
  | _ k ih =>
    intro e he
    by_cases hall : ∀ j, j < k → ∃ w, prepareWord D Ip Ic (i + j) = .ok w
    · exact ⟨k, e, le_refl k, he, hall⟩
    · push_neg at hall
      obtain ⟨j, hj, hjn⟩ := hall
      cases hpj : prepareWord D Ip Ic (i + j) with
      | ok w => exact absurd hpj (hjn w)
      | error e' =>
        obtain ⟨k0, e0, hk0, h0, hbefore⟩ := ih j hj e' hpj
        exact ⟨k0, e0, by omega, h0, hbefore⟩

/-- A successful `prepareWords` has read, at every index below `|U|`, three
aligned entries passing both checks, and has built the Word from them. -/
theorem prepareWords_eq_ok_entries {U : List String} {D : List WordInfoDTO}
    {Ip Ic : List WordImagesDTO} {ws : List Word} (h : prepareWords U D Ip Ic = .ok ws) :
    ws.length = U.length ∧ ∀ j, j < U.length → ∃ d p c, D[j]? = some d ∧ Ip[j]? = some p
      ∧ Ic[j]? = some c ∧ d.word = p.word ∧ 4 ≤ p.urls.length ∧ 4 ≤ c.urls.length
      ∧ ws[j]? = some (expectedWord d p c) := by
  obtain ⟨hlen, hall⟩ := prepareWordsLoop_eq_ok U.length 0 ws h
  refine ⟨hlen, fun j hj => ?_⟩
  obtain ⟨w, hw, hpw⟩ := hall j hj
  rw [Nat.zero_add] at hpw
  obtain ⟨d, p, c, hd, hp, hc, hword, h1, h2, rfl⟩ := prepareWord_eq_ok hpw
  exact ⟨d, p, c, hd, hp, hc, hword, h1, h2, hw⟩

/-- The failure of the loop body at an index where all three lists have an
entry is one of the two returned errors, never a panic. -/
theorem prepareWord_error_of_entries {D : List WordInfoDTO} {Ip Ic : List WordImagesDTO}
    {i : Nat} {d : WordInfoDTO} {p c : WordImagesDTO} {e : PrepareFailure}
    (hd : D[i]? = some d) (hp : Ip[i]? = some p) (hc : Ic[i]? = some c)
    (he : prepareWord D Ip Ic i = .error e) :
    (d.word ≠ p.word ∧ e = .errBadImageAndDefinitionWord p.word d.word)
      ∨ (d.word = p.word ∧ (p.urls.length < 4 ∨ c.urls.length < 4)
          ∧ e = .preparingImages d.word .errBadImagesCount) := by
  rw [prepareWord_of_entries hd hp hc] at he
  by_cases hw : d.word ≠ p.word
  · rw [if_pos hw] at he
    injection he with he
    exact Or.inl ⟨hw, he.symm⟩
  · rw [if_neg hw] at he
    by_cases hu : p.urls.length < 4 ∨ c.urls.length < 4
    · rw [if_pos hu] at he
      injection he with he
      exact Or.inr ⟨not_not.mp hw, hu, he.symm⟩
    · rw [if_neg hu] at he; cases he

/-- When the loop body fails at some index below `|U|`, `prepareWords` fails
with the failure of the first such index. -/
theorem prepareWords_error_of_failing_index {U : List String} {D : List WordInfoDTO}
    {Ip Ic : List WordImagesDTO} {i : Nat} {e : PrepareFailure} (hi : i < U.length)
    (he : prepareWord D Ip Ic i = .error e) :
    ∃ k0 e0, k0 ≤ i ∧ prepareWord D Ip Ic k0 = .error e0
      ∧ (∀ j, j < k0 → ∃ w, prepareWord D Ip Ic j = .ok w)
      ∧ prepareWords U D Ip Ic = .error e0 := by
  obtain ⟨k0, e0, hk0, h0, hbefore⟩ :=
    @prepareWord_first_failure_exists D Ip Ic 0 i e
      (by rw [Nat.zero_add]; exact he)
  refine ⟨k0, e0, hk0, by simpa using h0, fun j hj => by simpa using hbefore j hj, ?_⟩
  exact prepareWordsLoop_first_failure U.length 0 k0 e0 (by omega) hbefore h0

/-- The handler uploads nothing and answers 500 when `prepareWords` returns
one of its two errors. -/
theorem upload_of_prepareWords_error (hh : HTTPHandler) (text : String) {U : List String}
    {D : List WordInfoDTO} {Ip Ic : List WordImagesDTO} {e : PrepareFailure}
    (hU : hh.textParser.ExtractWords text = .ok U)
    (hD : hh.dictionary.WordsInfo U = .ok D)
    (hIp : hh.images.Search U = .ok Ip)
    (hIc : hh.images.Search (U.map (fun word => word ++ " meaning")) = .ok Ic)
    (he : prepareWords U D Ip Ic = .error e)
    (hnp : ∀ a b, e ≠ .panicIndexOutOfRange a b) :
    hh.UploadToSpacedRepetitionService text
      = ⟨some (.String 500 userErrSomethingWentWrong), []⟩ := by
  unfold HTTPHandler.UploadToSpacedRepetitionService
  simp only [hU, hD, hIp, hIc, he]

/-- The handler calls `UploadWords` only with the list `prepareWords` built. -/
theorem upload_calls_of_mem (hh : HTTPHandler) (text : String) {ws : List Word}
    (hws : ws ∈ (hh.UploadToSpacedRepetitionService text).uploadCalls) :
    ∃ U D Ip Ic, hh.textParser.ExtractWords text = .ok U
      ∧ hh.dictionary.WordsInfo U = .ok D
      ∧ hh.images.Search U = .ok Ip
      ∧ hh.images.Search (U.map (fun word => word ++ " meaning")) = .ok Ic
      ∧ prepareWords U D Ip Ic = .ok ws := by
  unfold HTTPHandler.UploadToSpacedRepetitionService at hws
  cases hU : hh.textParser.ExtractWords text with
  | error e => simp [hU] at hws
  | ok U =>
    cases hD : hh.dictionary.WordsInfo U with
    | error e => simp [hU, hD] at hws
    | ok D =>
      cases hIp : hh.images.Search U with
      | error e => simp [hU, hD, hIp] at hws
      | ok Ip =>
        cases hIc : hh.images.Search (U.map (fun word => word ++ " meaning")) with
        | error e => simp [hU, hD, hIp, hIc] at hws
        | ok Ic =>
          cases hP : prepareWords U D Ip Ic with
          | error e =>
            simp only [hU, hD, hIp, hIc, hP] at hws
            cases e <;> simp at hws
          | ok words =>
            simp only [hU, hD, hIp, hIc, hP] at hws
            refine ⟨U, D, Ip, Ic, rfl, hD, hIp, hIc, ?_⟩
            cases hS : hh.spacedRepetitionService.UploadWords words with
            | error e => simp [hS] at hws; rw [hws]; exact hP
            | ok u => simp [hS] at hws; rw [hws]; exact hP

/-- The dictionary client answers with one entry per word, carrying that word. -/
theorem WordsInfo_words (wa : WordsAPI) :
    ∀ (words : List String) (infos : List WordInfoDTO), wa.WordsInfo words = .ok infos →
      infos.map (fun d => d.word) = words
  | [], infos, h => by
    simp only [WordsAPI.WordsInfo] at h
    injection h with h
    subst h; rfl
  | word :: rest, infos, h => by
    simp only [WordsAPI.WordsInfo] at h
    cases hi : wa.wordInfo word with
    | error e => rw [hi] at h; cases h
    | ok info =>
      rw [hi] at h
      cases hr : wa.WordsInfo rest with
      | error e => rw [hr] at h; cases h
      | ok infos' =>
        rw [hr] at h
        injection h with h
        subst h
        have hword : info.word = word := by
          unfold WordsAPI.wordInfo at hi
          cases hdef : wa.definitionsAPICall word with
          | error e => simp [hdef] at hi
          | ok dr =>
            cases hex : wa.examplesAPICall word with
            | error e => simp [hdef, hex] at hi
            | ok er =>
              simp only [hdef, hex] at hi
              injection hi with hi
              rw [← hi]; rfl
        simp only [List.map_cons, hword, WordsInfo_words wa rest infos' hr]

/-- The loop depends on the lists only through the loop body at the indices
it visits. -/
theorem prepareWordsLoop_congr {D D' : List WordInfoDTO} {Ip Ip' Ic Ic' : List WordImagesDTO} :
    ∀ (n i : Nat), (∀ j, j < n → prepareWord D Ip Ic (i + j) = prepareWord D' Ip' Ic' (i + j)) →
      prepareWordsLoop D Ip Ic i n = prepareWordsLoop D' Ip' Ic' i n
  | 0, _, _ => rfl
  | n + 1, i, h => by
    have h0 := h 0 (by omega)
    rw [Nat.add_zero] at h0
    have hrec := @prepareWordsLoop_congr D D' Ip Ip' Ic Ic' n (i + 1) (fun j hj => by
        have := h (j + 1) (by omega)
        rw [show i + 1 + j = i + (j + 1) by omega]; exact this)
    simp only [prepareWordsLoop, h0, hrec]

/-- Below index `n` the loop body does not see entries cut off at `n`. -/
theorem prepareWord_take {D : List WordInfoDTO} {Ip Ic : List WordImagesDTO} {n i : Nat}
    (hi : i < n) :
    prepareWord (D.take n) (Ip.take n) (Ic.take n) i = prepareWord D Ip Ic i := by
  have hlen : ∀ {α : Type} (l : List α), l[i]? = none → (l.take n).length = l.length := by
    intro α l hl
    have := List.getElem?_eq_none_iff.mp hl
    rw [List.length_take]; omega
  unfold prepareWord
  rw [List.getElem?_take_of_lt hi, List.getElem?_take_of_lt hi, List.getElem?_take_of_lt hi]
  cases hd : D[i]? with
  | none => simp only [hlen D hd]
  | some d =>
    cases hp : Ip[i]? with
    | none => simp only [hlen Ip hp]
    | some p =>
      cases hc : Ic[i]? with
      | none => simp only [hlen Ic hc]
      | some c => rfl

/-! ## The enrichment pipeline: claims C1 to C6 -/

/-- C1 (length cap): whenever `prepareWords` succeeds on an unknown-word list
and lists of WordInfo, plain images and clarified images, every Word it emits
has at most 4 definitions, at most 4 examples and exactly 8 image URLs. -/
theorem prepareWords_length_cap (U : List String) (D : List WordInfoDTO)
    (Ip Ic : List WordImagesDTO) (ws : List Word) (h : prepareWords U D Ip Ic = .ok ws) :
    ∀ w ∈ ws, w.definitions.length ≤ 4 ∧ w.examples.length ≤ 4 ∧ w.imageURLs.length = 8 := by
  intro w hw
  obtain ⟨hlen, hall⟩ := prepareWords_eq_ok_entries h
  obtain ⟨j, hj, hjw⟩ := List.getElem_of_mem hw
  obtain ⟨d, p, c, -, -, -, -, h1, h2, hwj⟩ := hall j (by omega)
  rw [List.getElem?_eq_getElem hj, hjw] at hwj
  injection hwj with hwj
  subst hwj
  simp only [expectedWord, List.length_take, List.length_append]
  omega

/-- Witness of C1: a batch whose dictionary entry has 5 definitions and 6
examples and whose image lists have 5 and 6 URLs. -/
theorem prepareWords_length_cap_witness :
    prepareWords ["ship"] [scenario.shipLong] [scenario.shipPlain] [scenario.shipClarifiedLong]
      = .ok [⟨"ship", ["d1", "d2", "d3", "d4"], ["e1", "e2", "e3", "e4"],
              ["p1", "p2", "p3", "p4", "c1", "c2", "c3", "c4"]⟩]
    ∧ ∀ w ∈ [(⟨"ship", ["d1", "d2", "d3", "d4"], ["e1", "e2", "e3", "e4"],
              ["p1", "p2", "p3", "p4", "c1", "c2", "c3", "c4"]⟩ : Word)],
        w.definitions.length ≤ 4 ∧ w.examples.length ≤ 4 ∧ w.imageURLs.length = 8 :=
  ⟨by decide,
    prepareWords_length_cap ["ship"] [scenario.shipLong] [scenario.shipPlain]
      [scenario.shipClarifiedLong] _ (by decide)⟩

/-- C2 as stated fails: in the batch `[run, jump]` the dictionary drifts to
`jumps` at index 1, all lists have length 2, yet `prepareWords` stops at index
0, whose plain search has 3 URLs, with the bad-images-count error and not with
the alignment-mismatch error. -/
theorem alignment_mismatch_not_always_reported :
    scenario.driftInfos.length = ["run", "jump"].length
      ∧ scenario.runJumpPlainShort.length = ["run", "jump"].length
      ∧ scenario.runJumpClarified.length = ["run", "jump"].length
      ∧ (scenario.driftInfos.map (fun d => d.word))[1]?
          ≠ (scenario.runJumpPlainShort.map (fun p => p.word))[1]?
      ∧ prepareWords ["run", "jump"] scenario.driftInfos scenario.runJumpPlainShort
          scenario.runJumpClarified = .error (.preparingImages "run" .errBadImagesCount)
      ∧ ¬ ∃ a b, prepareWords ["run", "jump"] scenario.driftInfos scenario.runJumpPlainShort
          scenario.runJumpClarified = .error (.errBadImageAndDefinitionWord a b) := by
  have h : prepareWords ["run", "jump"] scenario.driftInfos scenario.runJumpPlainShort
      scenario.runJumpClarified = .error (.preparingImages "run" .errBadImagesCount) := by
    decide
  refine ⟨by decide, by decide, by decide, by decide, h, ?_⟩
  rintro ⟨a, b, hab⟩
  rw [h] at hab
  cases hab

/-- C2 (alignment contract, amended): for a batch `U` with lists `D`, `Ip`,
`Ic` of length `|U|` returned by the collaborators, if `D[i].word` differs
from `Ip[i].word` at an index `i < |U|`, then `prepareWords` returns an
error, the handler answers 500 and `UploadWords` is not called.  The error is
that of the first failing index: either the alignment-mismatch error carrying
both words of a mismatching index `j ≤ i`, or the bad-images-count error of an
index `j < i`; it is the alignment-mismatch error carrying `Ip[i].word` and
`D[i].word` when every index before `i` has equal words and at least 4 plain
and 4 clarified URLs. -/
theorem alignment_contract (hh : HTTPHandler) (text : String) (U : List String)
    (D : List WordInfoDTO) (Ip Ic : List WordImagesDTO)
    (hU : hh.textParser.ExtractWords text = .ok U)
    (hD : hh.dictionary.WordsInfo U = .ok D)
    (hIp : hh.images.Search U = .ok Ip)
    (hIc : hh.images.Search (U.map (fun word => word ++ " meaning")) = .ok Ic)
    (hlenD : D.length = U.length) (hlenIp : Ip.length = U.length)
    (hlenIc : Ic.length = U.length)
    (i : Nat) (hi : i < U.length) (d : WordInfoDTO) (p : WordImagesDTO)
    (hd : D[i]? = some d) (hp : Ip[i]? = some p) (hne : d.word ≠ p.word) :
    (∃ e, prepareWords U D Ip Ic = .error e
      ∧ ((∃ j d' p', j ≤ i ∧ D[j]? = some d' ∧ Ip[j]? = some p' ∧ d'.word ≠ p'.word
            ∧ e = .errBadImageAndDefinitionWord p'.word d'.word)
          ∨ (∃ j d', j < i ∧ D[j]? = some d'
            ∧ e = .preparingImages d'.word .errBadImagesCount)))
    ∧ (hh.UploadToSpacedRepetitionService text).uploadCalls = []
    ∧ (hh.UploadToSpacedRepetitionService text).response
        = some (.String 500 userErrSomethingWentWrong)
    ∧ ((∀ j, j < i → ∀ d' p' c', D[j]? = some d' → Ip[j]? = some p' → Ic[j]? = some c' →
          d'.word = p'.word ∧ 4 ≤ p'.urls.length ∧ 4 ≤ c'.urls.length) →
        prepareWords U D Ip Ic = .error (.errBadImageAndDefinitionWord p.word d.word)) := by
  have hci : i < Ic.length := by omega
  have hc : Ic[i]? = some Ic[i] := List.getElem?_eq_getElem hci
  have hfail : prepareWord D Ip Ic i = .error (.errBadImageAndDefinitionWord p.word d.word) := by
    rw [prepareWord_of_entries hd hp hc, if_pos hne]
  obtain ⟨k0, e0, hk0, h0, hbefore, hres⟩ := prepareWords_error_of_failing_index hi hfail
  have hk0D : k0 < D.length := by omega
  have hk0Ip : k0 < Ip.length := by omega
  have hk0Ic : k0 < Ic.length := by omega
  have hclass := prepareWord_error_of_entries (List.getElem?_eq_getElem hk0D)
    (List.getElem?_eq_getElem hk0Ip) (List.getElem?_eq_getElem hk0Ic) h0
  have hnp : ∀ a b, e0 ≠ .panicIndexOutOfRange a b := by
    intro a b hab
    rcases hclass with ⟨-, h⟩ | ⟨-, -, h⟩ <;> rw [h] at hab <;> cases hab
  have hrun := upload_of_prepareWords_error hh text hU hD hIp hIc hres hnp
  refine ⟨⟨e0, hres, ?_⟩, by rw [hrun], by rw [hrun], ?_⟩
  · rcases hclass with ⟨hw, h⟩ | ⟨hw, -, h⟩
    · exact Or.inl ⟨k0, D[k0], Ip[k0], hk0, List.getElem?_eq_getElem hk0D,
        List.getElem?_eq_getElem hk0Ip, hw, h⟩
    · refine Or.inr ⟨k0, D[k0], ?_, List.getElem?_eq_getElem hk0D, h⟩
      rcases Nat.lt_or_eq_of_le hk0 with hlt | heq
      · exact hlt
      · subst heq
        rw [hfail] at h0
        injection h0 with h0
        rw [h] at h0
        cases h0
  · intro hgood
    refine prepareWordsLoop_first_failure U.length 0 i _ hi ?_ (by rw [Nat.zero_add]; exact hfail)
    intro j hj
    rw [Nat.zero_add]
    have hjD : j < D.length := by omega
    have hjIp : j < Ip.length := by omega
    have hjIc : j < Ic.length := by omega
    obtain ⟨hw, h1, h2⟩ := hgood j hj D[j] Ip[j] Ic[j] (List.getElem?_eq_getElem hjD)
      (List.getElem?_eq_getElem hjIp) (List.getElem?_eq_getElem hjIc)
    refine ⟨expectedWord D[j] Ip[j] Ic[j], ?_⟩
    rw [prepareWord_of_entries (List.getElem?_eq_getElem hjD) (List.getElem?_eq_getElem hjIp)
      (List.getElem?_eq_getElem hjIc), if_neg (not_not.mpr hw), if_neg (by omega)]

/-- Witness of C2: scenario S4, where index 0 is sound and index 1 drifts. -/
theorem alignment_contract_witness :
    prepareWords ["run", "jump"] scenario.driftInfos scenario.runJumpPlain
        scenario.runJumpClarified = .error (.errBadImageAndDefinitionWord "jump" "jumps")
      ∧ (scenario.driftHandler.UploadToSpacedRepetitionService "run jump").uploadCalls = []
      ∧ (scenario.driftHandler.UploadToSpacedRepetitionService "run jump").response
          = some (.String 500 userErrSomethingWentWrong) := by
  have h := alignment_contract scenario.driftHandler "run jump" ["run", "jump"]
    scenario.driftInfos scenario.runJumpPlain scenario.runJumpClarified
    (by decide) (by decide) (by decide) (by decide) (by decide) (by decide) (by decide)
    1 (by decide) ⟨"jumps", [], []⟩ ⟨"jump", ["q1", "q2", "q3", "q4"]⟩
    (by decide) (by decide) (by decide)
  refine ⟨h.2.2.2 ?_, h.2.1, h.2.2.1⟩
  intro j hj d' p' c' hd' hp' hc'
  obtain rfl : j = 0 := by omega
  simp only [scenario.driftInfos, scenario.runJumpPlain, scenario.runJumpClarified,
    List.getElem?_cons_zero, Option.some.injEq] at hd' hp' hc'
  subst hd' hp' hc'
  decide

/-- C3 (content of an emitted Word) is broken by the code: for the batch
`[ship, ship]` whose two plain entries are one slice of length and capacity 8
and whose clarified entries hold `c1..c4` and `k1..k4`, `prepareWords`
succeeds, and the first Word it returns reads `[p1,p2,p3,p4,k1,k2,k3,k4]`, not
the first 4 URLs of `Ip[0]` followed by the first 4 URLs of `Ic[0]`, which
are `[p1,p2,p3,p4,c1,c2,c3,c4]`: the `append` of the second iteration writes
into the array that the first Word shares. -/
theorem prepareWords_clobbers_earlier_word :
    heap.prepareWordsRead scenario.sharedHeap ["ship", "ship"]
        [scenario.shipInfoRef, scenario.shipInfoRef]
        [scenario.shipPlainRef, scenario.shipPlainRef]
        [scenario.shipClarifiedRef, scenario.shipClarifiedOtherRef]
      = .ok [⟨"ship", ["a vessel", "to send"], ["The ship sailed."],
              ["p1", "p2", "p3", "p4", "k1", "k2", "k3", "k4"]⟩,
             ⟨"ship", ["a vessel", "to send"], ["The ship sailed."],
              ["p1", "p2", "p3", "p4", "k1", "k2", "k3", "k4"]⟩]
    ∧ (heap.read scenario.sharedHeap scenario.shipPlainRef.urls).take 4
        ++ (heap.read scenario.sharedHeap scenario.shipClarifiedRef.urls).take 4
      = ["p1", "p2", "p3", "p4", "c1", "c2", "c3", "c4"] := by
  decide

/-- The same defect with two different words: when the plain URLs of `run`
and `jump` are the two halves of one array, the `append` for `run` writes
over the first URLs of `jump`, and the Word for `jump` reads
`[c2,c3,c4,q4,r1,r2,r3,r4]` instead of `[q1,q2,q3,q4,r1,r2,r3,r4]`. -/
theorem prepareWords_clobbers_next_entry :
    heap.prepareWordsRead scenario.batchHeap ["run", "jump"] scenario.batchInfoRefs
        scenario.batchPlainRefs scenario.batchClarifiedRefs
      = .ok [⟨"run", [], [], ["p1", "p2", "p3", "p4", "c1", "c2", "c3", "c4"]⟩,
             ⟨"jump", [], [], ["c2", "c3", "c4", "q4", "r1", "r2", "r3", "r4"]⟩]
    ∧ (scenario.batchPlainRefs.map (fun p => (heap.read scenario.batchHeap p.urls).take 4))
      = [["p1", "p2", "p3", "p4"], ["q1", "q2", "q3", "q4"]] := by
  decide

/-- C4 (insufficient images): `prepareImages` fails with `errBadImagesCount`
exactly when the plain list or the clarified list has fewer than 4 URLs; and
when that is so for the entries at some index `i < |U|`, `prepareWords`
produces no Word list. -/
theorem insufficient_images :
    (∀ normalImages clarifiedImages : List String,
      prepareImages normalImages clarifiedImages = .error .errBadImagesCount
        ↔ (normalImages.length < 4 ∨ clarifiedImages.length < 4))
    ∧ (∀ (U : List String) (D : List WordInfoDTO) (Ip Ic : List WordImagesDTO) (i : Nat)
        (p c : WordImagesDTO), i < U.length → Ip[i]? = some p → Ic[i]? = some c →
        prepareImages p.Urls c.Urls = .error .errBadImagesCount →
        ∀ ws, prepareWords U D Ip Ic ≠ .ok ws) := by
  refine ⟨fun n c => prepareImages_eq_error_iff n c _, ?_⟩
  intro U D Ip Ic i p c hi hp hc hbad ws hok
  obtain ⟨-, hall⟩ := prepareWords_eq_ok_entries hok
  obtain ⟨d, p', c', -, hp', hc', -, h1, h2, -⟩ := hall i hi
  rw [hp] at hp'
  rw [hc] at hc'
  injection hp' with hp'
  injection hc' with hc'
  subst hp' hc'
  have := (prepareImages_eq_error_iff p.urls c.urls _).mp hbad
  omega

/-- Witness of C4: scenario S5, the plain search for `x` returns 3 URLs. -/
theorem insufficient_images_witness :
    prepareImages scenario.xPlainShort.Urls scenario.xClarified.Urls = .error .errBadImagesCount
    ∧ prepareWords ["x"] [scenario.xInfo] [scenario.xPlainShort] [scenario.xClarified]
        = .error (.preparingImages "x" .errBadImagesCount)
    ∧ ∀ ws, prepareWords ["x"] [scenario.xInfo] [scenario.xPlainShort] [scenario.xClarified]
        ≠ .ok ws :=
  ⟨by decide, by decide,
    insufficient_images.2 ["x"] [scenario.xInfo] [scenario.xPlainShort] [scenario.xClarified] 0
      scenario.xPlainShort scenario.xClarified (by decide) (by decide) (by decide) (by decide)⟩

/-- C5 as stated fails: with one unknown word, a WordInfo list and a plain
WordImages list of length 2 do not fail the batch; the Word list is produced
from the entries at index 0. -/
theorem prepareWords_accepts_longer_lists :
    [scenario.shipInfo, scenario.xInfo].length ≠ ["ship"].length
      ∧ [scenario.shipPlain, scenario.xPlainShort].length ≠ ["ship"].length
      ∧ prepareWords ["ship"] [scenario.shipInfo, scenario.xInfo]
          [scenario.shipPlain, scenario.xPlainShort] [scenario.shipClarified]
        = .ok [⟨"ship", ["a vessel", "to send"], ["The ship sailed."],
                ["p1", "p2", "p3", "p4", "c1", "c2", "c3", "c4"]⟩] := by
  decide

/-- C5 (alignment invariant on lengths, amended): for a batch of `N` unknown
words, if the WordInfo list or the plain WordImages list handed to
`prepareWords` is shorter than `N`, no Word list is produced; entries of the
lists beyond the first `N` are ignored, the outcome being that of the lists
cut to `N` entries. -/
theorem prepareWords_lengths (U : List String) (D : List WordInfoDTO)
    (Ip Ic : List WordImagesDTO) :
    ((D.length < U.length ∨ Ip.length < U.length) → ∀ ws, prepareWords U D Ip Ic ≠ .ok ws)
    ∧ prepareWords U D Ip Ic
        = prepareWords U (D.take U.length) (Ip.take U.length) (Ic.take U.length) := by
  constructor
  · intro hshort ws hok
    obtain ⟨-, hall⟩ := prepareWords_eq_ok_entries hok
    rcases hshort with hs | hs
    · obtain ⟨d, -, -, hd, -⟩ := hall D.length hs
      rw [List.getElem?_eq_none (le_refl _)] at hd
      cases hd
    · obtain ⟨-, p, -, -, hp, -⟩ := hall Ip.length hs
      rw [List.getElem?_eq_none (le_refl _)] at hp
      cases hp
  · unfold prepareWords
    refine (prepareWordsLoop_congr U.length 0 ?_).symm
    intro j hj
    rw [Nat.zero_add]
    exact prepareWord_take hj

/-- Witness of C5: two unknown words against a WordInfo list of length 1. -/
theorem prepareWords_lengths_witness :
    ([scenario.shipInfo].length < ["ship", "x"].length
        ∨ [scenario.shipPlain, scenario.xPlainShort].length < ["ship", "x"].length)
      ∧ prepareWords ["ship", "x"] [scenario.shipInfo]
          [scenario.shipPlain, scenario.xPlainShort]
          [scenario.shipClarified, scenario.xClarified] = .error (.panicIndexOutOfRange 1 1)
      ∧ ∀ ws, prepareWords ["ship", "x"] [scenario.shipInfo]
          [scenario.shipPlain, scenario.xPlainShort]
          [scenario.shipClarified, scenario.xClarified] ≠ .ok ws :=
  ⟨by decide, by decide,
    (prepareWords_lengths ["ship", "x"] [scenario.shipInfo]
      [scenario.shipPlain, scenario.xPlainShort]
      [scenario.shipClarified, scenario.xClarified]).1 (by decide)⟩

/-- C6 (upload order): in a handler whose dictionary is the `WordsAPI` client
(over any upstream), whatever the image search and the sink, every list handed
to `UploadWords` has exactly `|U|` Words and its `i`-th Word carries the word
`U[i]`, where `U` is the unknown-word list parsed from the form. -/
theorem upload_order (wa : WordsAPI) (hh : HTTPHandler) (text : String) (U : List String)
    (ws : List Word)
    (hdict : hh.dictionary.WordsInfo = wa.WordsInfo)
    (hU : hh.textParser.ExtractWords text = .ok U)
    (hws : ws ∈ (hh.UploadToSpacedRepetitionService text).uploadCalls) :
    ws.length = U.length
      ∧ (∀ i (hi : i < U.length), ws[i]?.map (fun w => w.word) = some U[i])
      ∧ (hh.UploadToSpacedRepetitionService text).uploadCalls = [ws] := by
  obtain ⟨U', D, Ip, Ic, hU', hD, hIp, hIc, hP⟩ := upload_calls_of_mem hh text hws
  rw [hU] at hU'
  injection hU' with hU'
  subst hU'
  rw [hdict] at hD
  have hwords := WordsInfo_words wa U D hD
  obtain ⟨hlen, hall⟩ := prepareWords_eq_ok_entries hP
  refine ⟨hlen, ?_, ?_⟩
  · intro i hi
    obtain ⟨d, p, c, hd, -, -, -, -, -, hw⟩ := hall i hi
    rw [hw]
    have : (D.map (fun d => d.word))[i]? = some d.word := by
      rw [List.getElem?_map, hd]; rfl
    rw [hwords, List.getElem?_eq_getElem hi] at this
    injection this with this
    simp only [Option.map_some', expectedWord, this]
  · rw [← hdict] at hD
    unfold HTTPHandler.UploadToSpacedRepetitionService
    simp only [hU, hD, hIp, hIc, hP]
    cases hh.spacedRepetitionService.UploadWords ws <;> rfl

/-- Witness of C6: the form text `ship run` through `WordsAPI` reaches the
sink as the Words for `ship` and `run`, in that order. -/
theorem upload_order_witness :
    (scenario.fullHandler.UploadToSpacedRepetitionService "ship run").uploadCalls
        = [[⟨"ship", ["first sense", "second sense"], ["an example"],
              ["u1", "u2", "u3", "u4", "u1", "u2", "u3", "u4"]⟩,
            ⟨"run", ["first sense", "second sense"], ["an example"],
              ["u1", "u2", "u3", "u4", "u1", "u2", "u3", "u4"]⟩]]
      ∧ ∀ i (hi : i < ["ship", "run"].length),
          [(⟨"ship", ["first sense", "second sense"], ["an example"],
              ["u1", "u2", "u3", "u4", "u1", "u2", "u3", "u4"]⟩ : Word),
            ⟨"run", ["first sense", "second sense"], ["an example"],
              ["u1", "u2", "u3", "u4", "u1", "u2", "u3", "u4"]⟩][i]?.map (fun w => w.word)
            = some ["ship", "run"][i] :=
  ⟨by decide,
    (upload_order _ scenario.fullHandler "ship run" ["ship", "run"] _ rfl (by decide)
      (by decide)).2.1⟩

end port

end Vocaboost

/-! ## Properties of the tokenizer -/

namespace Vocaboost

namespace textparser

theorem char_le_iff (a b : Char) : a ≤ b ↔ a.toNat ≤ b.toNat := by
  rw [Char.le_def, UInt32.le_def]
  rfl

theorem char_eq_iff (a b : Char) : a = b ↔ a.toNat = b.toNat := by
  constructor
  · intro h; rw [h]
  · intro h
    rw [← Char.ofNat_toNat a, ← Char.ofNat_toNat b, h]

theorem isWordChar_iff (c : Char) :
    isWordChar c = true ↔
      ((48 ≤ c.toNat ∧ c.toNat ≤ 57) ∨ (65 ≤ c.toNat ∧ c.toNat ≤ 90) ∨ c.toNat = 95
        ∨ (97 ≤ c.toNat ∧ c.toNat ≤ 122)) := by
  unfold isWordChar
  rw [decide_eq_true_iff]
  simp only [char_le_iff, char_eq_iff]
  rfl

theorem isSpace_iff (c : Char) :
    isSpace c = true ↔
      ((9 ≤ c.toNat ∧ c.toNat ≤ 13) ∨ c.toNat = 32 ∨ c.toNat = 133 ∨ c.toNat = 160
        ∨ c.toNat = 5760 ∨ (8192 ≤ c.toNat ∧ c.toNat ≤ 8202) ∨ c.toNat = 8232
        ∨ c.toNat = 8233 ∨ c.toNat = 8239 ∨ c.toNat = 8287 ∨ c.toNat = 12288) := by
  unfold isSpace
  rw [decide_eq_true_iff]

/-- A word character is not a space. -/
theorem isSpace_of_isWordChar {c : Char} (h : isWordChar c = true) : isSpace c = false := by
  rw [isWordChar_iff] at h
  cases hs : isSpace c with
  | false => rfl
  | true => rw [isSpace_iff] at hs; omega

/-- Every field is non-empty and made of runes of the text (or of the open
field) that are not separators. -/
theorem fieldsLoop_mem (f : Char → Bool) :
    ∀ (text pending : List Char), (∀ c ∈ pending, f c = false) →
      ∀ t ∈ fieldsLoop f text pending,
        t.data ≠ [] ∧ ∀ c ∈ t.data, f c = false ∧ (c ∈ text ∨ c ∈ pending)
  | [], pending, hp, t, ht => by
    unfold fieldsLoop at ht
    by_cases he : pending.isEmpty = true
    · rw [if_pos he] at ht; cases ht
    · rw [if_neg he] at ht
      rw [List.mem_singleton] at ht
      subst ht
      refine ⟨?_, fun c hc => ⟨hp c (List.mem_reverse.mp hc), Or.inr (List.mem_reverse.mp hc)⟩⟩
      intro hnil
      apply he
      have : pending.reverse = [] := hnil
      rw [List.reverse_eq_nil_iff] at this
      rw [this]; rfl
  | c :: rest, pending, hp, t, ht => by
    unfold fieldsLoop at ht
    by_cases hf : f c = true
    · rw [if_pos hf] at ht
      by_cases he : pending.isEmpty = true
      · rw [if_pos he] at ht
        obtain ⟨h1, h2⟩ := fieldsLoop_mem f rest [] (fun _ h => absurd h (List.not_mem_nil _)) t ht
        refine ⟨h1, fun x hx => ?_⟩
        obtain ⟨hx1, hx2⟩ := h2 x hx
        rcases hx2 with hx2 | hx2
        · exact ⟨hx1, Or.inl (List.mem_cons_of_mem _ hx2)⟩
        · exact absurd hx2 (List.not_mem_nil _)
      · rw [if_neg he] at ht
        rcases List.mem_cons.mp ht with ht | ht
        · subst ht
          refine ⟨?_, fun x hx =>
            ⟨hp x (List.mem_reverse.mp hx), Or.inr (List.mem_reverse.mp hx)⟩⟩
          intro hnil
          apply he
          have : pending.reverse = [] := hnil
          rw [List.reverse_eq_nil_iff] at this
          rw [this]; rfl
        · obtain ⟨h1, h2⟩ :=
            fieldsLoop_mem f rest [] (fun _ h => absurd h (List.not_mem_nil _)) t ht
          refine ⟨h1, fun x hx => ?_⟩
          obtain ⟨hx1, hx2⟩ := h2 x hx
          rcases hx2 with hx2 | hx2
          · exact ⟨hx1, Or.inl (List.mem_cons_of_mem _ hx2)⟩
          · exact absurd hx2 (List.not_mem_nil _)
    · rw [if_neg hf] at ht
      have hf' : f c = false := by simpa using hf
      obtain ⟨h1, h2⟩ := fieldsLoop_mem f rest (c :: pending)
        (fun x hx => by
          rcases List.mem_cons.mp hx with hx | hx
          · rw [hx]; exact hf'
          · exact hp x hx) t ht
      refine ⟨h1, fun x hx => ?_⟩
      obtain ⟨hx1, hx2⟩ := h2 x hx
      rcases hx2 with hx2 | hx2
      · exact ⟨hx1, Or.inl (List.mem_cons_of_mem _ hx2)⟩
      · rcases List.mem_cons.mp hx2 with hx2 | hx2
        · exact ⟨hx1, Or.inl (by rw [hx2]; exact List.mem_cons_self _ _)⟩
        · exact ⟨hx1, Or.inr hx2⟩

/-- The fields, concatenated, are the open field followed by the runes of the
text that are not separators. -/
theorem fieldsLoop_flatten (f : Char → Bool) :
    ∀ (text pending : List Char),
      ((fieldsLoop f text pending).map String.data).flatten
        = pending.reverse ++ text.filter (fun c => !f c)
  | [], pending => by
    unfold fieldsLoop
    by_cases he : pending.isEmpty = true
    · rw [if_pos he]
      rw [List.isEmpty_iff] at he
      subst he; rfl
    · rw [if_neg he]; simp
  | c :: rest, pending => by
    unfold fieldsLoop
    by_cases hf : f c = true
    · rw [if_pos hf]
      by_cases he : pending.isEmpty = true
      · rw [if_pos he, fieldsLoop_flatten f rest []]
        rw [List.isEmpty_iff] at he
        subst he
        simp [hf]
      · rw [if_neg he]
        simp [fieldsLoop_flatten f rest [], hf]
    · rw [if_neg hf, fieldsLoop_flatten f rest (c :: pending)]
      simp [hf]

/-- Dropping the spaces of the rewritten text leaves the word characters of
the original text. -/
theorem filter_replaceAllNonWord (text : List Char) :
    (replaceAllNonWord text).filter (fun c => !isSpace c) = text.filter isWordChar := by
  induction text with
  | nil => rfl
  | cons c rest ih =>
    unfold replaceAllNonWord at ih ⊢
    rw [List.map_cons]
    by_cases hw : isWordChar c = true
    · rw [if_pos hw, List.filter_cons_of_pos (by simp [isSpace_of_isWordChar hw]),
        List.filter_cons_of_pos hw, ih]
    · rw [if_neg hw, List.filter_cons_of_neg (by decide), List.filter_cons_of_neg hw, ih]

/-- The rewritten text holds word characters and spaces only. -/
theorem mem_replaceAllNonWord {text : List Char} {c : Char}
    (h : c ∈ replaceAllNonWord text) : isWordChar c = true ∨ c = ' ' := by
  unfold replaceAllNonWord at h
  obtain ⟨x, -, hx⟩ := List.mem_map.mp h
  by_cases hw : isWordChar x = true
  · rw [if_pos hw] at hx; subst hx; exact Or.inl hw
  · rw [if_neg hw] at hx; exact Or.inr hx.symm

/-- Every token of the rewritten text is non-empty and made of word
characters. -/
theorem Fields_replaceAllNonWord_mem {text : List Char} {t : String}
    (ht : t ∈ Fields (replaceAllNonWord text)) :
    t.data ≠ [] ∧ ∀ c ∈ t.data, isWordChar c = true := by
  obtain ⟨h1, h2⟩ := fieldsLoop_mem isSpace (replaceAllNonWord text) []
    (fun _ h => absurd h (List.not_mem_nil _)) t ht
  refine ⟨h1, fun c hc => ?_⟩
  obtain ⟨hns, hmem⟩ := h2 c hc
  rcases hmem with hmem | hmem
  · rcases mem_replaceAllNonWord hmem with hw | hsp
    · exact hw
    · subst hsp
      exact absurd hns (by decide)
  · exact absurd hmem (List.not_mem_nil _)

/-- An open field swallows a run of runes that are not separators. -/
theorem fieldsLoop_append (f : Char → Bool) :
    ∀ (xs ys pending : List Char), (∀ c ∈ xs, f c = false) →
      fieldsLoop f (xs ++ ys) pending = fieldsLoop f ys (xs.reverse ++ pending)
  | [], _, _, _ => rfl
  | x :: xs, ys, pending, h => by
    have hx : f x = false := h x (List.mem_cons_self _ _)
    rw [List.cons_append, fieldsLoop, if_neg (by simp [hx]),
      fieldsLoop_append f xs ys (x :: pending) (fun c hc => h c (List.mem_cons_of_mem _ hc))]
    simp

/-- Scanning tokens that are each preceded by one space, with a field open,
closes that field and yields the tokens. -/
theorem fieldsLoop_spaced :
    ∀ (rest : List String) (pending : List Char), pending ≠ [] →
      (∀ t ∈ rest, t.data ≠ [] ∧ ∀ c ∈ t.data, isSpace c = false) →
      fieldsLoop isSpace ((rest.map (fun a => " ".data ++ a.data)).flatten) pending
        = String.mk pending.reverse :: rest
  | [], pending, hp, _ => by
    simp only [List.map_nil, List.flatten_nil, fieldsLoop]
    rw [if_neg (by simpa using hp)]
  | a :: rest, pending, hp, h => by
    obtain ⟨ha1, ha2⟩ := h a (List.mem_cons_self _ _)
    have hsp : (" " : String).data = [' '] := rfl
    rw [List.map_cons, List.flatten_cons, hsp, List.append_assoc, List.singleton_append,
      fieldsLoop, if_pos (by decide), if_neg (by simpa using hp),
      fieldsLoop_append isSpace a.data _ [] ha2, List.append_nil,
      fieldsLoop_spaced rest a.data.reverse (by simpa using ha1)
        (fun t ht => h t (List.mem_cons_of_mem _ ht)),
      List.reverse_reverse]

theorem intercalate_go_data (s : String) :
    ∀ (l : List String) (acc : String),
      (String.intercalate.go acc s l).data
        = acc.data ++ (l.map (fun a => s.data ++ a.data)).flatten
  | [], acc => by simp [String.intercalate.go]
  | a :: l, acc => by
    rw [String.intercalate.go, intercalate_go_data s l]
    simp [String.data_append]

/-- Tokens joined by single spaces are tokenized back into themselves. -/
theorem ExtractWords_intercalate (ts : List String)
    (h : ∀ t ∈ ts, t.data ≠ [] ∧ ∀ c ∈ t.data, isWordChar c = true) :
    Fields (replaceAllNonWord (String.intercalate " " ts).data) = ts := by
  cases ts with
  | nil => rfl
  | cons t rest =>
    have hdata : (String.intercalate " " (t :: rest)).data
        = t.data ++ (rest.map (fun a => " ".data ++ a.data)).flatten := by
      rw [String.intercalate, intercalate_go_data]
    have hfix : replaceAllNonWord (String.intercalate " " (t :: rest)).data
        = (String.intercalate " " (t :: rest)).data := by
      unfold replaceAllNonWord
      conv_rhs => rw [← List.map_id (String.intercalate " " (t :: rest)).data]
      apply List.map_congr_left
      intro c hc
      rw [hdata] at hc
      by_cases hw : isWordChar c = true
      · rw [if_pos hw]; rfl
      · rw [if_neg hw]
        rcases List.mem_append.mp hc with hc | hc
        · exact absurd ((h t (List.mem_cons_self _ _)).2 c hc) hw
        · obtain ⟨l, hl, hcl⟩ := List.mem_flatten.mp hc
          obtain ⟨a, ha, rfl⟩ := List.mem_map.mp hl
          rcases List.mem_append.mp hcl with hcl | hcl
          · have : c = ' ' := by simpa using hcl
            rw [this]; rfl
          · exact absurd ((h a (List.mem_cons_of_mem _ ha)).2 c hcl) hw
    obtain ⟨ht1, ht2⟩ := h t (List.mem_cons_self _ _)
    rw [hfix, hdata]
    unfold Fields
    rw [fieldsLoop_append isSpace t.data _ [] (fun c hc => isSpace_of_isWordChar (ht2 c hc)),
      List.append_nil,
      fieldsLoop_spaced rest t.data.reverse (by simpa using ht1)
        (fun a ha => ⟨(h a (List.mem_cons_of_mem _ ha)).1,
          fun c hc => isSpace_of_isWordChar ((h a (List.mem_cons_of_mem _ ha)).2 c hc)⟩),
      List.reverse_reverse]

/-- C7 (tokenization): for every text `ExtractWords` returns a token list and
no error; every token is non-empty and made of ASCII letters, digits and
underscores only; and the tokens concatenated in order are a subsequence of the
text. -/
theorem ExtractWords_tokens (text : String) :
    ∃ tokens, ExtractWords text = .ok tokens
      ∧ (∀ t ∈ tokens, t.data ≠ [] ∧ ∀ c ∈ t.data,
          ('0' ≤ c ∧ c ≤ '9') ∨ ('A' ≤ c ∧ c ≤ 'Z') ∨ c = '_' ∨ ('a' ≤ c ∧ c ≤ 'z'))
      ∧ (String.join tokens).data.Sublist text.data := by
  refine ⟨Fields (replaceAllNonWord text.data), rfl, ?_, ?_⟩
  · intro t ht
    obtain ⟨h1, h2⟩ := Fields_replaceAllNonWord_mem ht
    refine ⟨h1, fun c hc => ?_⟩
    have hw := h2 c hc
    unfold isWordChar at hw
    exact of_decide_eq_true hw
  · rw [String.data_join]
    unfold Fields
    rw [fieldsLoop_flatten, List.reverse_nil, List.nil_append, filter_replaceAllNonWord]
    exact List.filter_sublist _

end textparser

end Vocaboost

/-! ## Properties of the filter stage -/

namespace Vocaboost

namespace port

open textparser repository

/-- The loop of `UniqString` reads `seen` as a set. -/
theorem uniqStringLoop_congr :
    ∀ (l seen seen' : List String), (∀ x, x ∈ seen ↔ x ∈ seen') →
      uniqStringLoop seen l = uniqStringLoop seen' l
  | [], _, _, _ => by simp only [uniqStringLoop]
  | v :: rest, seen, seen', h => by
    simp only [uniqStringLoop]
    by_cases hv : v ∈ seen
    · rw [if_pos hv, if_pos ((h v).mp hv)]
      exact uniqStringLoop_congr rest seen seen' h
    · rw [if_neg hv, if_neg (fun h' => hv ((h v).mpr h'))]
      rw [uniqStringLoop_congr rest (v :: seen) (v :: seen')
        (fun x => by simp only [List.mem_cons, h x])]

/-- Having seen one more value amounts to dropping it from the results. -/
theorem uniqStringLoop_cons_seen :
    ∀ (l seen : List String) (x : String),
      uniqStringLoop (x :: seen) l = (uniqStringLoop seen l).filter (fun y => decide (y ≠ x))
  | [], _, _ => by simp only [uniqStringLoop, List.filter_nil]
  | v :: rest, seen, x => by
    simp only [uniqStringLoop]
    by_cases hv : v ∈ seen
    · rw [if_pos hv, if_pos (List.mem_cons_of_mem _ hv)]
      exact uniqStringLoop_cons_seen rest seen x
    · rw [if_neg hv]
      by_cases hx : v = x
      · subst hx
        rw [if_pos (List.mem_cons_self _ _), List.filter_cons_of_neg (by simp),
          uniqStringLoop_cons_seen rest seen v, List.filter_filter]
        simp only [Bool.and_self]
      · rw [if_neg (by simp only [List.mem_cons, not_or]; exact ⟨hx, hv⟩),
          List.filter_cons_of_pos (by simpa using hx)]
        rw [uniqStringLoop_congr rest (v :: x :: seen) (x :: v :: seen)
          (fun y => by simp only [List.mem_cons]; tauto)]
        rw [uniqStringLoop_cons_seen rest (v :: seen) x]

/-- The recursive reading of `UniqString`: the head stays, and is dropped
from the deduplicated tail. -/
theorem UniqString_cons (v : String) (rest : List String) :
    UniqString (v :: rest) = v :: (UniqString rest).filter (fun y => decide (y ≠ v)) := by
  unfold UniqString
  simp only [uniqStringLoop, List.not_mem_nil, if_false]
  rw [uniqStringLoop_cons_seen rest [] v]

theorem UniqString_nil : UniqString [] = [] := rfl

theorem mem_UniqString (w : String) : ∀ (l : List String), w ∈ UniqString l ↔ w ∈ l
  | [] => by rw [UniqString_nil]
  | v :: rest => by
    rw [UniqString_cons, List.mem_cons, List.mem_cons, List.mem_filter, mem_UniqString w rest]
    by_cases h : w = v
    · simp [h]
    · simp [h]

theorem UniqString_nodup : ∀ (l : List String), (UniqString l).Nodup
  | [] => by rw [UniqString_nil]; exact List.nodup_nil
  | v :: rest => by
    rw [UniqString_cons, List.nodup_cons]
    refine ⟨?_, (UniqString_nodup rest).filter _⟩
    intro h
    have := (List.mem_filter.mp h).2
    simp at this

theorem UniqString_of_nodup : ∀ (l : List String), l.Nodup → UniqString l = l
  | [], _ => UniqString_nil
  | v :: rest, h => by
    rw [List.nodup_cons] at h
    rw [UniqString_cons, UniqString_of_nodup rest h.2]
    congr 1
    rw [List.filter_eq_self]
    intro a ha
    have : a ≠ v := fun hav => h.1 (hav ▸ ha)
    simpa using this

/-- The results of `UniqString` stand in the order of their first occurrence. -/
theorem UniqString_pairwise_indexOf :
    ∀ (l : List String), (UniqString l).Pairwise (fun a b => l.indexOf a < l.indexOf b)
  | [] => by rw [UniqString_nil]; exact List.Pairwise.nil
  | v :: rest => by
    rw [UniqString_cons, List.pairwise_cons]
    constructor
    · intro b hb
      have hbv : b ≠ v := by simpa using (List.mem_filter.mp hb).2
      rw [List.indexOf_cons_self, List.indexOf_cons_ne _ (Ne.symm hbv)]
      exact Nat.succ_pos _
    · have ih := (UniqString_pairwise_indexOf rest).filter (fun y => decide (y ≠ v))
      refine ih.imp_of_mem ?_
      intro a b ha hb hab
      have hav : a ≠ v := by simpa using (List.mem_filter.mp ha).2
      have hbv : b ≠ v := by simpa using (List.mem_filter.mp hb).2
      rw [List.indexOf_cons_ne _ (Ne.symm hav), List.indexOf_cons_ne _ (Ne.symm hbv)]
      exact Nat.succ_lt_succ hab

/-- Filtering before deduplicating is deduplicating before filtering. -/
theorem UniqString_filter (q : String → Bool) :
    ∀ (l : List String), UniqString (l.filter q) = (UniqString l).filter q
  | [] => rfl
  | v :: rest => by
    by_cases hq : q v = true
    · rw [List.filter_cons_of_pos hq, UniqString_cons, UniqString_cons,
        List.filter_cons_of_pos hq, UniqString_filter q rest, List.filter_filter,
        List.filter_filter]
      congr 1
      apply List.filter_congr
      intro x _
      exact Bool.and_comm _ _
    · rw [List.filter_cons_of_neg hq, UniqString_cons, List.filter_cons_of_neg hq,
        UniqString_filter q rest, List.filter_filter]
      apply List.filter_congr
      intro x _
      by_cases hx : x = v
      · subst hx; simp [hq]
      · simp [hx]

/-- A successful `filterWords` keeps exactly the words whose key the store
reports as absent, in order. -/
theorem filterWords_eq_ok (rwr : RedisWordsRepo) (key : String → String) :
    ∀ (words out : List String), rwr.filterWords words (words.map key) = .ok out →
      out = words.filter (fun w =>
        match rwr.Exists (key w) with
        | .ok count => decide (count < 1)
        | .error _ => false)
  | [], out, h => by
    simp only [List.map_nil, RedisWordsRepo.filterWords] at h
    injection h with h
    rw [← h]; rfl
  | w :: words, out, h => by
    simp only [List.map_cons, RedisWordsRepo.filterWords] at h
    cases he : rwr.Exists (key w) with
    | error e => simp only [he] at h; cases h
    | ok count =>
      cases hr : rwr.filterWords words (words.map key) with
      | error e => simp only [he, hr] at h; cases h
      | ok rest =>
        simp only [he, hr] at h
        have ih := filterWords_eq_ok rwr key words rest hr
        by_cases hc : count < 1
        · rw [if_pos hc] at h
          injection h with h
          rw [List.filter_cons_of_pos (by simp [he, hc]), ← ih, h]
        · rw [if_neg hc] at h
          injection h with h
          rw [List.filter_cons_of_neg (by simp [he, hc]), ← ih, h]

/-- On a reachable store `filterWords` succeeds and keeps the words whose key
is not in the database. -/
theorem filterWords_ofKeys (keys : List String) (key : String → String) :
    ∀ (words : List String), (RedisWordsRepo.ofKeys keys).filterWords words (words.map key)
      = .ok (words.filter (fun w => decide (key w ∉ keys)))
  | [] => rfl
  | w :: words => by
    simp only [List.map_cons, RedisWordsRepo.filterWords, RedisWordsRepo.ofKeys]
    have ih := filterWords_ofKeys keys key words
    simp only [RedisWordsRepo.ofKeys] at ih
    rw [ih]
    by_cases hk : key w ∈ keys
    · rw [if_pos hk, List.filter_cons_of_neg (by simpa using hk)]
      rfl
    · rw [if_neg hk, List.filter_cons_of_pos (by simpa using hk)]
      rfl

/-- The list the filter stage hands to the store: lowercased tokens, numbers
and short tokens dropped, duplicates dropped. -/
theorem SplitTextToWords_eq_ok {hh : HTTPHandler} {rwr : RedisWordsRepo} {text : String}
    {out : List String} {code : Nat} {name : String}
    (hparser : hh.textParser = V1) (hrepo : hh.wordsRepo = rwr.toInterface)
    (h : hh.SplitTextToWords text = .HTML code name out) :
    ∃ known, rwr.FilterKnownWords
        (UniqString (((Fields (replaceAllNonWord text.data)).map ToLower).filter keepWord))
        = .ok known
      ∧ rwr.FilterIgnoredWords known = .ok out := by
  unfold HTTPHandler.SplitTextToWords at h
  rw [hparser, hrepo] at h
  simp only [V1, ExtractWords, RedisWordsRepo.toInterface] at h
  cases hk : rwr.FilterKnownWords
      (UniqString (((Fields (replaceAllNonWord text.data)).map ToLower).filter keepWord)) with
  | error e => simp only [hk] at h; cases h
  | ok known =>
    cases hi : rwr.FilterIgnoredWords known with
    | error e => simp only [hk, hi] at h; cases h
    | ok ignored =>
      simp only [hk, hi] at h
      injection h with _ _ h
      exact ⟨known, rfl, by rw [hi, h]⟩

theorem lowerRune_of_not_upper {c : Char} (h : ¬ ('A' ≤ c ∧ c ≤ 'Z')) : lowerRune c = c := by
  unfold lowerRune
  rw [if_neg h]

theorem upper_cases {c : Char} (h : 'A' ≤ c ∧ c ≤ 'Z') :
    ∃ n, 65 ≤ n ∧ n ≤ 90 ∧ c = Char.ofNat n := by
  rw [char_le_iff, char_le_iff] at h
  exact ⟨c.toNat, h.1, h.2, (Char.ofNat_toNat c).symm⟩

theorem lowerRune_idem (c : Char) : lowerRune (lowerRune c) = lowerRune c := by
  by_cases h : 'A' ≤ c ∧ c ≤ 'Z'
  · obtain ⟨n, h1, h2, rfl⟩ := upper_cases h
    interval_cases n <;> decide
  · rw [lowerRune_of_not_upper h, lowerRune_of_not_upper h]

theorem isWordChar_lowerRune {c : Char} (hc : isWordChar c = true) :
    isWordChar (lowerRune c) = true := by
  by_cases h : 'A' ≤ c ∧ c ≤ 'Z'
  · obtain ⟨n, h1, h2, rfl⟩ := upper_cases h
    interval_cases n <;> decide
  · rw [lowerRune_of_not_upper h]; exact hc

theorem ToLower_idem (w : String) : ToLower (ToLower w) = ToLower w := by
  unfold ToLower
  simp only [List.map_map]
  congr 1
  apply List.map_congr_left
  intro c _
  exact lowerRune_idem c

/-- The lowercased tokens of a text are non-empty, made of word characters,
and unchanged by lowercasing. -/
theorem lowered_token {text : List Char} {w : String}
    (hw : w ∈ (Fields (replaceAllNonWord text)).map ToLower) :
    (w.data ≠ [] ∧ ∀ c ∈ w.data, isWordChar c = true) ∧ ToLower w = w := by
  obtain ⟨r, hr, rfl⟩ := List.mem_map.mp hw
  obtain ⟨h1, h2⟩ := Fields_replaceAllNonWord_mem hr
  refine ⟨⟨?_, ?_⟩, ToLower_idem r⟩
  · unfold ToLower
    simpa using h1
  · intro c hc
    unfold ToLower at hc
    obtain ⟨x, hx, rfl⟩ := List.mem_map.mp hc
    exact isWordChar_lowerRune (h2 x hx)

/-- With no known and no ignored key in a reachable store, the filter stage
answers with the deduplicated, filtered, lowercased tokens. -/
theorem SplitTextToWords_of_empty_sets {hh : HTTPHandler} {keys : List String}
    (hparser : hh.textParser = V1)
    (hrepo : hh.wordsRepo = (RedisWordsRepo.ofKeys keys).toInterface)
    (hempty : ∀ w, knownWordKey w ∉ keys ∧ ignoredWordKey w ∉ keys) (text : String) :
    hh.SplitTextToWords text = .HTML 200 "words_list.html"
      (UniqString (((Fields (replaceAllNonWord text.data)).map ToLower).filter keepWord)) := by
  have hid : ∀ (key : String → String) (l : List String), (∀ w, key w ∉ keys) →
      (RedisWordsRepo.ofKeys keys).filterWords l (l.map key) = .ok l := by
    intro key l hk
    rw [filterWords_ofKeys, List.filter_eq_self.mpr (fun a _ => by simpa using hk a)]
  unfold HTTPHandler.SplitTextToWords
  rw [hparser, hrepo]
  simp only [V1, ExtractWords, RedisWordsRepo.toInterface, RedisWordsRepo.FilterKnownWords,
    RedisWordsRepo.FilterIgnoredWords, hid knownWordKey _ (fun w => (hempty w).1),
    hid ignoredWordKey _ (fun w => (hempty w).2)]

/-! ## The filter stage: claims C8 to C10 -/

/-- C8 (filter idempotence): with empty Known and Ignored sets, for every
text the filter stage produces a candidate list, and running the filter stage
on that list joined by single spaces returns the same candidate list. -/
theorem filter_idempotent (hh : HTTPHandler) (keys : List String)
    (hparser : hh.textParser = V1)
    (hrepo : hh.wordsRepo = (RedisWordsRepo.ofKeys keys).toInterface)
    (hempty : ∀ w, knownWordKey w ∉ keys ∧ ignoredWordKey w ∉ keys) (text : String) :
    ∃ out, hh.SplitTextToWords text = .HTML 200 "words_list.html" out
      ∧ hh.SplitTextToWords (String.intercalate " " out) = .HTML 200 "words_list.html" out := by
  refine ⟨_, SplitTextToWords_of_empty_sets hparser hrepo hempty text, ?_⟩
  rw [SplitTextToWords_of_empty_sets hparser hrepo hempty]
  congr 1
  generalize hout :
    UniqString (((Fields (replaceAllNonWord text.data)).map ToLower).filter keepWord) = out
  have hmem : ∀ w ∈ out, keepWord w = true
      ∧ w ∈ (Fields (replaceAllNonWord text.data)).map ToLower := by
    intro w hw
    rw [← hout, mem_UniqString, List.mem_filter] at hw
    exact ⟨hw.2, hw.1⟩
  have hnodup : out.Nodup := by rw [← hout]; exact UniqString_nodup _
  rw [ExtractWords_intercalate out (fun w hw => (lowered_token (hmem w hw).2).1)]
  have hlow : out.map ToLower = out := by
    conv_rhs => rw [← List.map_id out]
    exact List.map_congr_left (fun w hw => (lowered_token (hmem w hw).2).2)
  rw [hlow, List.filter_eq_self.mpr (fun w hw => (hmem w hw).1), UniqString_of_nodup out hnodup]

/-- Witness of C8: the text of scenario S1 against an empty store. -/
theorem filter_idempotent_witness :
    ∃ out, scenario.fullHandler.SplitTextToWords "The quick brown Fox, the 42 brown fox!"
        = .HTML 200 "words_list.html" out
      ∧ scenario.fullHandler.SplitTextToWords (String.intercalate " " out)
        = .HTML 200 "words_list.html" out :=
  filter_idempotent scenario.fullHandler [] rfl rfl
    (fun _ => ⟨List.not_mem_nil _, List.not_mem_nil _⟩) "The quick brown Fox, the 42 brown fox!"

/-- The candidate list is the deduplicated lowercased token list, filtered. -/
theorem SplitTextToWords_eq_filter {hh : HTTPHandler} {rwr : RedisWordsRepo} {text : String}
    {out : List String}
    (hparser : hh.textParser = V1) (hrepo : hh.wordsRepo = rwr.toInterface)
    (h : hh.SplitTextToWords text = .HTML 200 "words_list.html" out) :
    ∃ q : String → Bool,
      out = (UniqString ((Fields (replaceAllNonWord text.data)).map ToLower)).filter q
      ∧ ∀ w, q w = true →
          (∃ c, rwr.Exists (knownWordKey w) = .ok c ∧ c < 1)
          ∧ (∃ c, rwr.Exists (ignoredWordKey w) = .ok c ∧ c < 1) := by
  obtain ⟨known, hk, hi⟩ := SplitTextToWords_eq_ok hparser hrepo h
  have hk' := filterWords_eq_ok rwr knownWordKey _ _ hk
  have hi' := filterWords_eq_ok rwr ignoredWordKey _ _ hi
  rw [UniqString_filter] at hk'
  rw [hk', List.filter_filter, List.filter_filter] at hi'
  refine ⟨_, hi', ?_⟩
  intro w hw
  simp only [Bool.and_eq_true] at hw
  obtain ⟨⟨h2, h1⟩, -⟩ := hw
  constructor
  · cases he : rwr.Exists (knownWordKey w) with
    | error e => rw [he] at h1; cases h1
    | ok c => rw [he] at h1; exact ⟨c, rfl, of_decide_eq_true h1⟩
  · cases he : rwr.Exists (ignoredWordKey w) with
    | error e => rw [he] at h2; cases h2
    | ok c => rw [he] at h2; exact ⟨c, rfl, of_decide_eq_true h2⟩

/-- C9 (dedup): for every text and every store, the candidate list the filter
stage produces contains no token twice, its tokens are lowercased tokens of
the text, and they stand in the order of their first occurrence among the
lowercased tokens of the text. -/
theorem candidates_dedup (hh : HTTPHandler) (rwr : RedisWordsRepo) (text : String)
    (raw out : List String)
    (hparser : hh.textParser = V1) (hrepo : hh.wordsRepo = rwr.toInterface)
    (hraw : ExtractWords text = .ok raw)
    (h : hh.SplitTextToWords text = .HTML 200 "words_list.html" out) :
    out.Nodup
      ∧ (∀ w ∈ out, w ∈ raw.map ToLower)
      ∧ out.Pairwise (fun a b => (raw.map ToLower).indexOf a < (raw.map ToLower).indexOf b) := by
  obtain ⟨q, hq, -⟩ := SplitTextToWords_eq_filter hparser hrepo h
  unfold ExtractWords at hraw
  injection hraw with hraw
  subst hraw
  subst hq
  refine ⟨(UniqString_nodup _).filter _, ?_, (UniqString_pairwise_indexOf _).filter _⟩
  intro w hw
  exact (mem_UniqString w _).mp (List.mem_filter.mp hw).1

/-- Witness of C9: scenario S1, where `the`, `brown` and `fox` repeat. -/
theorem candidates_dedup_witness :
    scenario.knownFoxHandler.SplitTextToWords "The quick brown Fox, the 42 brown fox!"
        = .HTML 200 "words_list.html" ["the", "quick", "brown"]
      ∧ ["the", "quick", "brown"].Nodup
      ∧ ["the", "quick", "brown"].Pairwise (fun a b =>
          (["The", "quick", "brown", "Fox", "the", "42", "brown", "fox"].map ToLower).indexOf a
            < (["The", "quick", "brown", "Fox", "the", "42", "brown", "fox"].map
                ToLower).indexOf b) := by
  have h := candidates_dedup scenario.knownFoxHandler (RedisWordsRepo.ofKeys ["k:fox"])
    "The quick brown Fox, the 42 brown fox!"
    ["The", "quick", "brown", "Fox", "the", "42", "brown", "fox"] ["the", "quick", "brown"]
    rfl rfl (by decide) (by decide)
  exact ⟨by decide, h.1, h.2.2⟩

/-- C10 (set subtraction): for every text and every store, each token of the
candidate list was reported absent by the store under its known key and under
its ignored key; so when the store holds the key set `keys`, no token whose
key `k:<token>` or `i:<token>` is in `keys` appears in the candidate list. -/
theorem candidates_exclude_known_and_ignored (hh : HTTPHandler) (rwr : RedisWordsRepo)
    (text : String) (out : List String)
    (hparser : hh.textParser = V1) (hrepo : hh.wordsRepo = rwr.toInterface)
    (h : hh.SplitTextToWords text = .HTML 200 "words_list.html" out) :
    ∀ w ∈ out,
      ((∃ c, rwr.Exists (knownWordKey w) = .ok c ∧ c < 1)
        ∧ (∃ c, rwr.Exists (ignoredWordKey w) = .ok c ∧ c < 1))
      ∧ ∀ keys, rwr = RedisWordsRepo.ofKeys keys →
          knownWordKey w ∉ keys ∧ ignoredWordKey w ∉ keys := by
  obtain ⟨q, hq, hspec⟩ := SplitTextToWords_eq_filter hparser hrepo h
  intro w hw
  rw [hq] at hw
  have hboth := hspec w (List.mem_filter.mp hw).2
  refine ⟨hboth, ?_⟩
  rintro keys rfl
  obtain ⟨⟨c1, h1, hc1⟩, ⟨c2, h2, hc2⟩⟩ := hboth
  simp only [RedisWordsRepo.ofKeys] at h1 h2
  injection h1 with h1
  injection h2 with h2
  constructor
  · intro hin
    rw [if_pos hin] at h1
    omega
  · intro hin
    rw [if_pos hin] at h2
    omega

/-- Witness of C10: the text of scenario S1 against a store that knows `fox`
and ignores `the`. -/
theorem candidates_exclude_known_and_ignored_witness :
    scenario.knownIgnoredHandler.SplitTextToWords "The quick brown Fox, the 42 brown fox!"
        = .HTML 200 "words_list.html" ["quick", "brown"]
      ∧ ∀ w ∈ ["quick", "brown"],
          knownWordKey w ∉ ["k:fox", "i:the"] ∧ ignoredWordKey w ∉ ["k:fox", "i:the"] := by
  have h := candidates_exclude_known_and_ignored scenario.knownIgnoredHandler
    (RedisWordsRepo.ofKeys ["k:fox", "i:the"]) "The quick brown Fox, the 42 brown fox!"
    ["quick", "brown"] rfl rfl (by decide)
  exact ⟨by decide, fun w hw => (h w hw).2 _ rfl⟩

end port

end Vocaboost

/-! ## The filter stage: claims C11 and C12 -/

namespace Vocaboost

namespace port

open textparser repository

/-- A run of decimal digits read from any start value yields a value. -/
theorem foldl_digits_isSome :
    ∀ (cs : List Char) (n : Nat), (∀ c ∈ cs, '0' ≤ c ∧ c ≤ '9') →
      ∃ m, cs.foldl
        (fun acc c =>
          match acc with
          | none => none
          | some n => if '0' ≤ c ∧ c ≤ '9' then some (n * 10 + (c.toNat - 48)) else none)
        (some n) = some m
  | [], n, _ => ⟨n, rfl⟩
  | c :: cs, n, h => by
    rw [List.foldl_cons]
    simp only [if_pos (h c (List.mem_cons_self _ _))]
    exact foldl_digits_isSome cs _ (fun x hx => h x (List.mem_cons_of_mem _ hx))

/-- A non-empty run of decimal digits has a value. -/
theorem digitsValue_of_digits {cs : List Char} (hne : cs ≠ [])
    (h : ∀ c ∈ cs, '0' ≤ c ∧ c ≤ '9') : ∃ n, digitsValue cs = some n := by
  cases cs with
  | nil => exact absurd rfl hne
  | cons c cs =>
    unfold digitsValue
    exact foldl_digits_isSome (c :: cs) 0 h

/-- When `Atoi` fails on a non-empty run of decimal digits, the value of the
run does not fit a 64-bit `int`. -/
theorem digitsValue_of_Atoi_none {w : String} (hne : w.data ≠ [])
    (h : ∀ c ∈ w.data, '0' ≤ c ∧ c ≤ '9') (hat : Atoi w = none) :
    ∃ n, digitsValue w.data = some n ∧ 2 ^ 63 ≤ n := by
  obtain ⟨n, hn⟩ := digitsValue_of_digits hne h
  refine ⟨n, hn, ?_⟩
  unfold Atoi at hat
  split at hat
  · rename_i body hbody
    have := h '-' (by rw [hbody]; exact List.mem_cons_self _ _)
    exact absurd this (by decide)
  · rename_i body hbody
    have := h '+' (by rw [hbody]; exact List.mem_cons_self _ _)
    exact absurd this (by decide)
  · rw [hn] at hat
    simp only at hat
    by_cases hge : n ≥ 2 ^ 63
    · exact hge
    · rw [if_neg hge] at hat
      cases hat

/-- Every candidate passed the predicate handed to `funk.FilterString` and is
a lowercased token of the text. -/
theorem candidate_kept {hh : HTTPHandler} {rwr : RedisWordsRepo} {text : String}
    {out : List String} (hparser : hh.textParser = V1) (hrepo : hh.wordsRepo = rwr.toInterface)
    (h : hh.SplitTextToWords text = .HTML 200 "words_list.html" out) :
    ∀ w ∈ out, keepWord w = true ∧ w ∈ (Fields (replaceAllNonWord text.data)).map ToLower := by
  obtain ⟨known, hk, hi⟩ := SplitTextToWords_eq_ok hparser hrepo h
  have hk' := filterWords_eq_ok rwr knownWordKey _ _ hk
  have hi' := filterWords_eq_ok rwr ignoredWordKey _ _ hi
  intro w hw
  rw [hi'] at hw
  have hw1 := (List.mem_filter.mp hw).1
  rw [hk'] at hw1
  have hw2 := (List.mem_filter.mp hw1).1
  rw [mem_UniqString, List.mem_filter] at hw2
  exact ⟨hw2.2, hw2.1⟩

/-- C11 (numeric drop) is broken by the code: for the text
`room 42 99999999999999999999` the candidate list holds the token
`99999999999999999999`, which consists of decimal digits only; `42` is
dropped, but `strconv.Atoi` answers the longer number with a range error and
the predicate takes any error for "not a number". -/
theorem huge_number_is_a_candidate :
    scenario.fullHandler.SplitTextToWords "room 42 99999999999999999999"
        = .HTML 200 "words_list.html" ["room", "99999999999999999999"]
      ∧ (∀ c ∈ "99999999999999999999".data, '0' ≤ c ∧ c ≤ '9')
      ∧ Atoi "99999999999999999999" = none := by
  decide

/-- How far the numeric drop of the handler reaches: no token of a candidate
list is parsed by `strconv.Atoi`, so an all-digit candidate has a value of
`2^63` or more. -/
theorem candidates_not_atoi (hh : HTTPHandler) (rwr : RedisWordsRepo) (text : String)
    (out : List String) (hparser : hh.textParser = V1) (hrepo : hh.wordsRepo = rwr.toInterface)
    (h : hh.SplitTextToWords text = .HTML 200 "words_list.html" out) :
    ∀ w ∈ out, Atoi w = none
      ∧ ((∀ c ∈ w.data, '0' ≤ c ∧ c ≤ '9') → ∃ n, digitsValue w.data = some n ∧ 2 ^ 63 ≤ n) := by
  intro w hw
  obtain ⟨hkeep, htok⟩ := candidate_kept hparser hrepo h w hw
  have hat : Atoi w = none := by
    unfold keepWord at hkeep
    cases ha : Atoi w with
    | none => rfl
    | some v => rw [ha] at hkeep; cases hkeep
  exact ⟨hat, fun hd => digitsValue_of_Atoi_none (lowered_token htok).1.1 hd hat⟩

/-- The numbers `42` and `9223372036854775807` are dropped, `room` stays. -/
theorem candidates_not_atoi_witness :
    scenario.fullHandler.SplitTextToWords "room 42 9223372036854775807"
        = .HTML 200 "words_list.html" ["room"]
      ∧ ∀ w ∈ ["room"], Atoi w = none
        ∧ ((∀ c ∈ w.data, '0' ≤ c ∧ c ≤ '9')
            → ∃ n, digitsValue w.data = some n ∧ 2 ^ 63 ≤ n) :=
  ⟨by decide,
    candidates_not_atoi scenario.fullHandler (RedisWordsRepo.ofKeys [])
      "room 42 9223372036854775807" ["room"] rfl rfl (by decide)⟩

/-- The reference `distinct` and the loop of `funk.UniqString` agree. -/
theorem distinct_eq_UniqString : ∀ (l : List String), reference.distinct l = UniqString l
  | [] => rfl
  | v :: rest => by
    rw [reference.distinct, UniqString_cons, distinct_eq_UniqString rest]

/-- A word character takes one byte in UTF-8. -/
theorem utf8Size_of_isWordChar {c : Char} (h : isWordChar c = true) : c.utf8Size = 1 := by
  rw [isWordChar_iff] at h
  have hnat : c.toNat ≤ 127 := by omega
  have hle : c.val ≤ UInt32.ofNatCore 0x7F (by decide) := by
    rw [UInt32.le_def]
    exact hnat
  unfold Char.utf8Size
  simp only [hle, if_true]

/-- On a string of word characters, `len` in bytes is the number of
characters. -/
theorem utf8ByteSize_of_isWordChar :
    ∀ (cs : List Char), (∀ c ∈ cs, isWordChar c = true) →
      (String.mk cs).utf8ByteSize = cs.length
  | [], _ => rfl
  | c :: cs, h => by
    have ih := utf8ByteSize_of_isWordChar cs (fun x hx => h x (List.mem_cons_of_mem _ hx))
    rw [String.utf8ByteSize_mk] at ih ⊢
    rw [String.utf8Len_cons, ih, utf8Size_of_isWordChar (h c (List.mem_cons_self _ _)),
      List.length_cons]

/-- On a lowercased token the predicate of the handler reads: not parsed by
`Atoi`, and more than one character. -/
theorem keepWord_of_token {text : List Char} {w : String}
    (hw : w ∈ (Fields (replaceAllNonWord text)).map ToLower) :
    keepWord w = ((Atoi w).isNone && decide (w.length > 1)) := by
  have hsize : w.utf8ByteSize = w.length :=
    utf8ByteSize_of_isWordChar w.data (lowered_token hw).1.2
  unfold keepWord
  rw [hsize]
  cases Atoi w with
  | none => simp
  | some v => simp

/-- On a reachable store holding the keys `keys`, the filter stage answers
with the deduplicated kept tokens whose known key and ignored key are absent. -/
theorem SplitTextToWords_ofKeys {hh : HTTPHandler} {keys : List String}
    (hparser : hh.textParser = V1)
    (hrepo : hh.wordsRepo = (RedisWordsRepo.ofKeys keys).toInterface) (text : String) :
    hh.SplitTextToWords text = .HTML 200 "words_list.html"
      (((UniqString (((Fields (replaceAllNonWord text.data)).map ToLower).filter keepWord)).filter
          (fun w => decide (knownWordKey w ∉ keys))).filter
        (fun w => decide (ignoredWordKey w ∉ keys))) := by
  unfold HTTPHandler.SplitTextToWords
  rw [hparser, hrepo]
  simp only [V1, ExtractWords, RedisWordsRepo.toInterface, RedisWordsRepo.FilterKnownWords,
    RedisWordsRepo.FilterIgnoredWords, filterWords_ofKeys]

/-- A run of characters that has a decimal value is non-empty and holds
decimal digits only. -/
theorem foldl_digits_eq_some :
    ∀ (cs : List Char) (acc : Option Nat) (m : Nat),
      cs.foldl
        (fun acc c =>
          match acc with
          | none => none
          | some n => if '0' ≤ c ∧ c ≤ '9' then some (n * 10 + (c.toNat - 48)) else none)
        acc = some m →
      acc ≠ none ∧ ∀ c ∈ cs, '0' ≤ c ∧ c ≤ '9'
  | [], acc, m, h => by
    simp only [List.foldl_nil] at h
    exact ⟨by rw [h]; exact Option.some_ne_none m, fun c hc => absurd hc (List.not_mem_nil c)⟩
  | c :: cs, acc, m, h => by
    rw [List.foldl_cons] at h
    obtain ⟨hne, hall⟩ := foldl_digits_eq_some cs _ m h
    cases acc with
    | none => exact absurd rfl hne
    | some n =>
      refine ⟨Option.some_ne_none n, ?_⟩
      have hc : '0' ≤ c ∧ c ≤ '9' := by
        by_contra hnot
        simp only [if_neg hnot] at hne
        exact hne rfl
      intro x hx
      rcases List.mem_cons.mp hx with hx | hx
      · rw [hx]; exact hc
      · exact hall x hx

theorem digitsValue_eq_some {cs : List Char} {n : Nat} (h : digitsValue cs = some n) :
    cs ≠ [] ∧ ∀ c ∈ cs, '0' ≤ c ∧ c ≤ '9' := by
  cases cs with
  | nil => simp [digitsValue] at h
  | cons c cs =>
    unfold digitsValue at h
    exact ⟨List.cons_ne_nil c cs, (foldl_digits_eq_some (c :: cs) (some 0) n h).2⟩

/-- On a lowercased token `Atoi` reads the whole token as digits, and the
reference test is that the token is a non-empty run of decimal digits. -/
theorem token_number_tests {text : List Char} {w : String}
    (hw : w ∈ (Fields (replaceAllNonWord text)).map ToLower) :
    Atoi w = (match digitsValue w.data with
        | none => none
        | some un => if un ≥ 2 ^ 63 then none else some (un : Int))
      ∧ reference.parsesAsInteger w
          = (!w.data.isEmpty && w.data.all (fun c => decide ('0' ≤ c ∧ c ≤ '9'))) := by
  have hchars := (lowered_token hw).1.2
  constructor
  · unfold Atoi
    split
    · rename_i body hbody
      exact absurd (hchars '-' (by rw [hbody]; exact List.mem_cons_self _ _)) (by decide)
    · rename_i body hbody
      exact absurd (hchars '+' (by rw [hbody]; exact List.mem_cons_self _ _)) (by decide)
    · rfl
  · unfold reference.parsesAsInteger
    split
    · rename_i body hbody
      exact absurd (hchars '+' (by rw [hbody]; exact List.mem_cons_self _ _)) (by decide)
    · rename_i body hbody
      exact absurd (hchars '-' (by rw [hbody]; exact List.mem_cons_self _ _)) (by decide)
    · rfl

/-- On a lowercased token that `Atoi` parses whenever it is a number, the
test of the handler and the test of the reference agree. -/
theorem Atoi_isNone_eq_not_parses {text : List Char} {w : String}
    (hw : w ∈ (Fields (replaceAllNonWord text)).map ToLower)
    (hrange : reference.parsesAsInteger w = true → (Atoi w).isSome = true) :
    (Atoi w).isNone = !reference.parsesAsInteger w := by
  cases hp : reference.parsesAsInteger w with
  | true =>
    have := hrange hp
    cases ha : Atoi w with
    | none => rw [ha] at this; cases this
    | some v => rfl
  | false =>
    obtain ⟨hat, hpar⟩ := token_number_tests hw
    rw [hpar] at hp
    have hnone : digitsValue w.data = none := by
      cases hd : digitsValue w.data with
      | none => rfl
      | some n =>
        obtain ⟨hne, hall⟩ := digitsValue_eq_some hd
        have h1 : w.data.isEmpty = false := by
          cases hdata : w.data with
          | nil => exact absurd hdata hne
          | cons c cs => rfl
        have h2 : w.data.all (fun c => decide ('0' ≤ c ∧ c ≤ '9')) = true := by
          rw [List.all_eq_true]
          intro c hc
          exact decide_eq_true (hall c hc)
        rw [h1, h2] at hp
        cases hp
    rw [hat, hnone]
    rfl

/-- Away from the numbers that `Atoi` cannot hold, the filter stage is its
reference: for every store state and every text whose lowercased tokens, when
they are numbers, are parsed by `Atoi`, the handler answers with exactly the
reference candidate list. -/
theorem filter_stage_eq_reference_of_int_range (hh : HTTPHandler) (keys : List String)
    (hparser : hh.textParser = V1)
    (hrepo : hh.wordsRepo = (RedisWordsRepo.ofKeys keys).toInterface) (text : String)
    (hrange : ∀ w ∈ (Fields (replaceAllNonWord text.data)).map ToLower,
      reference.parsesAsInteger w = true → (Atoi w).isSome = true) :
    hh.SplitTextToWords text
      = .HTML 200 "words_list.html" (reference.prepareCandidates keys text) := by
  rw [SplitTextToWords_ofKeys hparser hrepo, UniqString_filter, List.filter_filter,
    List.filter_filter]
  congr 1
  unfold reference.prepareCandidates
  rw [distinct_eq_UniqString]
  apply List.filter_congr
  intro w hw
  rw [mem_UniqString] at hw
  rw [keepWord_of_token hw, Atoi_isNone_eq_not_parses hw (hrange w hw)]
  cases (!reference.parsesAsInteger w) <;> cases decide (w.length > 1)
    <;> cases decide (knownWordKey w ∉ keys) <;> cases decide (ignoredWordKey w ∉ keys) <;> rfl

/-- Scenario S1 with Known = {fox}, and the text of scenario S2, where the
two-letter tokens `an` and `ox` are kept: handler and reference agree. -/
theorem filter_stage_eq_reference_scenarios :
    reference.prepareCandidates ["k:fox"] "The quick brown Fox, the 42 brown fox!"
        = ["the", "quick", "brown"]
      ∧ scenario.knownFoxHandler.SplitTextToWords "The quick brown Fox, the 42 brown fox!"
        = .HTML 200 "words_list.html" ["the", "quick", "brown"]
      ∧ reference.prepareCandidates ["k:fox"] "A cat and an ox." = ["cat", "and", "an", "ox"]
      ∧ scenario.knownFoxHandler.SplitTextToWords "A cat and an ox."
        = .HTML 200 "words_list.html" ["cat", "and", "an", "ox"] := by
  decide

/-- C12 (the filter stage equals its reference) is broken by the code: for
the text `Call 18446744073709551616 now` and an empty store the reference
candidate list is `[call, now]`, the number being a token that parses as a
base-10 integer, while the handler answers `[call, 18446744073709551616,
now]`, since `strconv.Atoi` rejects the number with a range error. -/
theorem filter_stage_keeps_what_reference_drops :
    reference.prepareCandidates [] "Call 18446744073709551616 now" = ["call", "now"]
      ∧ reference.parsesAsInteger "18446744073709551616" = true
      ∧ scenario.fullHandler.SplitTextToWords "Call 18446744073709551616 now"
          = .HTML 200 "words_list.html" ["call", "18446744073709551616", "now"]
      ∧ Atoi "18446744073709551616" = none := by
  decide

end port

end Vocaboost

/-! ## The sink entry: claim C13 -/

namespace Vocaboost

namespace spacedrepetition

open domain notionapi

/-- A loop that appends one block per entry builds the mapped list. -/
theorem foldl_append_singleton (f : String → Block) :
    ∀ (l : List String) (blocks : List Block),
      l.foldl (fun blocks x => blocks ++ [f x]) blocks = blocks ++ l.map f
  | [], blocks => by simp
  | x :: l, blocks => by
    rw [List.foldl_cons, foldl_append_singleton f l, List.map_cons, List.append_assoc]
    rfl

/-- C13 (sink entry structure): for every Word `w` the request built by
`buildPageCreateRequest` has the single title property `Name` whose text is
`w.word`, and its children are exactly one external-URL image block without
caption per URL of `w.imageURLs`, in order, then one bulleted-list-item block
per definition, in order, then one italic paragraph block per example, in
order; so it has `|imageURLs| + |definitions| + |examples|` blocks. -/
theorem buildPageCreateRequest_structure (n : Notion) (w : Word) :
    (n.buildPageCreateRequest w).Properties
        = [("Name", { ID := "", PropertyType := "",
                      Title := [{ Text := { Content := w.word, Link := none },
                                  Annotations := none }] })]
      ∧ (n.buildPageCreateRequest w).Children
          = w.imageURLs.map imageBlock ++ w.definitions.map definitionBlock
              ++ w.examples.map exampleBlock
      ∧ (n.buildPageCreateRequest w).Children.length
          = w.imageURLs.length + w.definitions.length + w.examples.length
      ∧ (∀ url, ∃ basic, imageBlock url = .ImageBlock basic
            { FileType := FileTypeExternal, External := some { URL := url, ExpiryTime := none },
              Caption := [], File := none }
          ∧ basic.BlockType = BlockTypeImage)
      ∧ (∀ d, ∃ basic, definitionBlock d = .BulletedListItemBlock basic
            [{ Text := { Content := d, Link := none }, Annotations := none }] [] ""
          ∧ basic.BlockType = BlockTypeBulletedListItem)
      ∧ (∀ e, ∃ basic ann, exampleBlock e = .ParagraphBlock basic
            [{ Text := { Content := e, Link := none }, Annotations := some ann }] [] ""
          ∧ basic.BlockType = BlockTypeParagraph ∧ ann.Italic = true) := by
  have hchildren : (n.buildPageCreateRequest w).Children
      = w.imageURLs.map imageBlock ++ w.definitions.map definitionBlock
          ++ w.examples.map exampleBlock := by
    unfold Notion.buildPageCreateRequest
    simp only [Word.ImageURLs, Word.Definitions, Word.Examples, foldl_append_singleton,
      List.nil_append]
  refine ⟨rfl, hchildren, ?_, ?_, ?_, ?_⟩
  · rw [hchildren]
    simp only [List.length_append, List.length_map]
  · intro url
    exact ⟨_, rfl, rfl⟩
  · intro d
    exact ⟨_, rfl, rfl⟩
  · intro e
    exact ⟨_, _, rfl, rfl, rfl⟩

end spacedrepetition

end Vocaboost

/-! ## The image client: claim C14 -/

namespace Vocaboost

namespace images

/-- The inner loop keeps the links of the accepted items, in order. -/
theorem foldl_filterLinks :
    ∀ (items : List Result) (filteredLinks : List String),
      items.foldl
        (fun filteredLinks item =>
          if item.Mime = "image/png" ∨ item.Mime = "image/jpeg" then
            filteredLinks ++ [item.Link]
          else filteredLinks)
        filteredLinks
      = filteredLinks ++ (items.filter
          (fun item => decide (item.Mime = "image/png" ∨ item.Mime = "image/jpeg"))).map
            (fun item => item.Link)
  | [], filteredLinks => by simp
  | item :: items, filteredLinks => by
    rw [List.foldl_cons, foldl_filterLinks items]
    by_cases h : item.Mime = "image/png" ∨ item.Mime = "image/jpeg"
    · rw [if_pos h, List.filter_cons_of_pos (by simpa using h), List.map_cons,
        List.append_assoc]
      rfl
    · rw [if_neg h, List.filter_cons_of_neg (by simpa using h)]

theorem filterLinks_eq (items : List Result) :
    filterLinks items
      = (items.filter
          (fun item => decide (item.Mime = "image/png" ∨ item.Mime = "image/jpeg"))).map
            (fun item => item.Link) := by
  unfold filterLinks
  rw [foldl_filterLinks, List.nil_append]

/-- C14 (image client filter): when `Search` succeeds on a list of queries,
its result has the length of the query list, and for every index `i` the
upstream call for the `i`-th query succeeded with some items, the `i`-th
result carries the `i`-th query string as its word, and its URLs are the
links of exactly those items whose MIME type is `image/png` or `image/jpeg`,
in upstream order. -/
theorem Search_result (gcs : GoogleCustomSearch) :
    ∀ (queries : List String) (res : List WordImagesDTO), gcs.Search queries = .ok res →
      res.length = queries.length
        ∧ ∀ i (hi : i < queries.length), ∃ items, gcs.Do queries[i] = .ok items
            ∧ res[i]? = some
                { word := queries[i]
                  urls := (items.filter (fun item =>
                      decide (item.Mime = "image/png" ∨ item.Mime = "image/jpeg"))).map
                    (fun item => item.Link) }
  | [], res, h => by
    simp only [GoogleCustomSearch.Search] at h
    injection h with h
    subst h
    exact ⟨rfl, fun i hi => absurd hi (Nat.not_lt_zero i)⟩
  | word :: rest, res, h => by
    simp only [GoogleCustomSearch.Search] at h
    cases hdo : gcs.Do word with
    | error e => simp only [hdo] at h; cases h
    | ok items =>
      cases hrest : gcs.Search rest with
      | error e => simp only [hdo, hrest] at h; cases h
      | ok wordImages =>
        simp only [hdo, hrest] at h
        injection h with h
        subst h
        obtain ⟨hlen, hall⟩ := Search_result gcs rest wordImages hrest
        refine ⟨by simp [hlen], ?_⟩
        intro i hi
        cases i with
        | zero =>
          refine ⟨items, hdo, ?_⟩
          simp only [List.getElem?_cons_zero, List.getElem_cons_zero, NewWordImagesDTO,
            filterLinks_eq]
        | succ i =>
          obtain ⟨items', hdo', hres⟩ := hall i (by simpa using hi)
          exact ⟨items', by simpa using hdo', by simpa using hres⟩

/-- Witness of C14: the queries `ship`, `ship meaning` against an upstream
that mixes accepted and other MIME types. -/
theorem Search_result_witness :
    scenario.searchUpstream.Search ["ship", "ship meaning"]
        = .ok [⟨"ship", ["l1", "l3"]⟩, ⟨"ship meaning", ["m1"]⟩]
      ∧ [(⟨"ship", ["l1", "l3"]⟩ : WordImagesDTO), ⟨"ship meaning", ["m1"]⟩].length
          = ["ship", "ship meaning"].length
      ∧ ∀ i (hi : i < ["ship", "ship meaning"].length), ∃ items,
          scenario.searchUpstream.Do ["ship", "ship meaning"][i] = .ok items
            ∧ [(⟨"ship", ["l1", "l3"]⟩ : WordImagesDTO), ⟨"ship meaning", ["m1"]⟩][i]? = some
                { word := ["ship", "ship meaning"][i]
                  urls := (items.filter (fun item =>
                      decide (item.Mime = "image/png" ∨ item.Mime = "image/jpeg"))).map
                    (fun item => item.Link) } :=
  ⟨by decide,
    Search_result scenario.searchUpstream ["ship", "ship meaning"]
      [⟨"ship", ["l1", "l3"]⟩, ⟨"ship meaning", ["m1"]⟩] (by decide)⟩

end images

end Vocaboost

/-! ## The WordSet store: claim C15 -/

namespace Vocaboost

namespace repository

theorem knownWordKey_injective {a b : String} (h : knownWordKey a = knownWordKey b) : a = b := by
  unfold knownWordKey at h
  rw [String.ext_iff, String.data_append, String.data_append] at h
  exact String.ext (List.append_cancel_left h)

theorem ignoredWordKey_injective {a b : String} (h : ignoredWordKey a = ignoredWordKey b) :
    a = b := by
  unfold ignoredWordKey at h
  rw [String.ext_iff, String.data_append, String.data_append] at h
  exact String.ext (List.append_cancel_left h)

/-- A known key is never an ignored key: the prefixes differ in their first
character. -/
theorem knownWordKey_ne_ignoredWordKey (a b : String) : knownWordKey a ≠ ignoredWordKey b := by
  intro h
  unfold knownWordKey ignoredWordKey at h
  rw [String.ext_iff, String.data_append, String.data_append] at h
  have hk : knownWordsPrefix.data = ['k', ':'] := rfl
  have hi : ignoredWordsPrefix.data = ['i', ':'] := rfl
  rw [hk, hi] at h
  injection h with h _
  exact absurd h (by decide)

/-- The map built from the words holds, under the key of a word, that word
when it is among the words, and what the map held before otherwise. -/
theorem foldl_set_key (f : String → String) (hinj : ∀ a b, f a = f b → a = b) :
    ∀ (ws : List String) (m : GoMap) (x : String),
      (ws.foldl (fun values word => values.set (f word) word) m) (f x)
        = if x ∈ ws then some x else m (f x)
  | [], m, x => by simp
  | w :: rest, m, x => by
    rw [List.foldl_cons, foldl_set_key f hinj rest]
    by_cases hx : x ∈ rest
    · rw [if_pos hx, if_pos (List.mem_cons_of_mem _ hx)]
    · rw [if_neg hx]
      unfold GoMap.set
      by_cases hk : f x = f w
      · have := hinj x w hk
        subst this
        rw [if_pos rfl, if_pos (List.mem_cons_self _ _)]
      · rw [if_neg hk, if_neg]
        intro hmem
        rcases List.mem_cons.mp hmem with h | h
        · exact hk (by rw [h])
        · exact hx h

/-- The map built from the words is unchanged at a key that is the key of no
word. -/
theorem foldl_set_other (f : String → String) (k : String) (hk : ∀ w, f w ≠ k) :
    ∀ (ws : List String) (m : GoMap),
      (ws.foldl (fun values word => values.set (f word) word) m) k = m k
  | [], _ => rfl
  | w :: rest, m => by
    rw [List.foldl_cons, foldl_set_other f k hk rest]
    unfold GoMap.set
    rw [if_neg (fun h => hk w h.symm)]

/-- On a reachable server `filterWords` succeeds and keeps the words whose key
holds no value. -/
theorem filterWords_reachable (client : RedisClient) (hup : client.failure = none)
    (key : String → String) :
    ∀ (words : List String),
      (NewRedisWordsRepo client).filterWords words (words.map key)
        = .ok (words.filter (fun w => (client.keyspace (key w)).isNone))
  | [] => rfl
  | w :: words => by
    have ih := filterWords_reachable client hup key words
    simp only [List.map_cons, RedisWordsRepo.filterWords, NewRedisWordsRepo,
      RedisClient.Exists, hup] at ih ⊢
    rw [ih]
    cases hks : client.keyspace (key w) with
    | none => simp [hks]
    | some v => simp [hks]

/-- On a reachable server `SaveAsKnown` succeeds; afterwards a key holds the
value of the map built from the words when there is one, and its former
value otherwise. -/
theorem SaveAsKnown_reachable (client : RedisClient) (hup : client.failure = none)
    (ws : List String) :
    SaveAsKnown client ws = .ok
      { keyspace := fun key =>
          match (ws.foldl (fun values word => values.set (knownWordKey word) word)
              GoMap.empty) key with
          | some v => some v
          | none => client.keyspace key
        failure := none } := by
  obtain ⟨keyspace, failure⟩ := client
  simp only at hup
  subst hup
  unfold SaveAsKnown
  cases ws with
  | nil => rfl
  | cons w rest =>
    rw [if_neg (by simp)]
    rfl

/-- C15 (known words are excluded after saving): on a reachable store in any
state, for all word lists `ws` and `xs`, `SaveAsKnown ws` succeeds and
afterwards `FilterKnownWords xs` returns exactly the elements of `xs`, in
order, whose known key was not stored before and that are not in `ws`; saving
`ws` again leaves the state as it is; saving the empty list changes nothing;
`FilterIgnoredWords` answers as before the save; and a key `k:<token>` is
never a key `i:<token>`. -/
theorem SaveAsKnown_then_filter (client : RedisClient) (ws xs : List String)
    (hup : client.failure = none) :
    ∃ saved, SaveAsKnown client ws = .ok saved
      ∧ (NewRedisWordsRepo saved).FilterKnownWords xs
          = .ok (xs.filter (fun x =>
              (client.keyspace (knownWordKey x)).isNone && decide (x ∉ ws)))
      ∧ SaveAsKnown saved ws = .ok saved
      ∧ SaveAsKnown client [] = .ok client
      ∧ (NewRedisWordsRepo saved).FilterIgnoredWords xs
          = (NewRedisWordsRepo client).FilterIgnoredWords xs
      ∧ ∀ a b, knownWordKey a ≠ ignoredWordKey b := by
  refine ⟨_, SaveAsKnown_reachable client hup ws, ?_, ?_, rfl, ?_,
    knownWordKey_ne_ignoredWordKey⟩
  · unfold RedisWordsRepo.FilterKnownWords
    rw [filterWords_reachable _ rfl]
    congr 1
    apply List.filter_congr
    intro x _
    simp only
    rw [foldl_set_key knownWordKey (fun a b h => knownWordKey_injective h)]
    by_cases hx : x ∈ ws
    · simp [hx]
    · simp only [hx, if_false, GoMap.empty, not_false_eq_true, decide_True, Bool.and_true]
  · rw [SaveAsKnown_reachable _ rfl ws]
    congr 2
    funext key
    simp only
    cases (ws.foldl (fun values word => values.set (knownWordKey word) word) GoMap.empty) key
      <;> rfl
  · unfold RedisWordsRepo.FilterIgnoredWords
    rw [filterWords_reachable _ rfl, filterWords_reachable client hup]
    congr 1
    apply List.filter_congr
    intro x _
    simp only
    rw [foldl_set_other knownWordKey (ignoredWordKey x)
      (fun w => knownWordKey_ne_ignoredWordKey w x)]
    rfl

/-- Witness of C15: `fox` is saved into a store that knows `cat` and ignores
`the`. -/
theorem SaveAsKnown_then_filter_witness :
    (match SaveAsKnown scenario.catClient ["fox"] with
      | .ok saved => (NewRedisWordsRepo saved).FilterKnownWords ["the", "fox", "cat", "dog", "fox"]
      | .error err => .error err) = .ok ["the", "dog"]
    ∧ ∃ saved, SaveAsKnown scenario.catClient ["fox"] = .ok saved
      ∧ (NewRedisWordsRepo saved).FilterKnownWords ["the", "fox", "cat", "dog", "fox"]
          = .ok (["the", "fox", "cat", "dog", "fox"].filter (fun x =>
              (scenario.catClient.keyspace (knownWordKey x)).isNone && decide (x ∉ ["fox"])))
      ∧ SaveAsKnown saved ["fox"] = .ok saved
      ∧ SaveAsKnown scenario.catClient [] = .ok scenario.catClient
      ∧ (NewRedisWordsRepo saved).FilterIgnoredWords ["the", "fox", "cat", "dog", "fox"]
          = (NewRedisWordsRepo scenario.catClient).FilterIgnoredWords
              ["the", "fox", "cat", "dog", "fox"]
      ∧ ∀ a b, knownWordKey a ≠ ignoredWordKey b :=
  ⟨by decide,
    SaveAsKnown_then_filter scenario.catClient ["fox"] ["the", "fox", "cat", "dog", "fox"] rfl⟩

end repository

end Vocaboost

/-! ## `prepareImages` over backing arrays -/

namespace Vocaboost

namespace port

namespace heap

/-- A slice of length at least `n`, cut to `n`, reads as the first `n` of its
elements. -/
theorem read_upTo {h : Heap} {s : Slice} {n : Nat} (hn : n ≤ s.len) :
    read h (s.upTo n) = (read h s).take n := by
  unfold read Slice.upTo
  simp only
  rw [List.take_take, Nat.min_eq_left hn]

/-- At the time `prepareImages` returns, its result reads as the first 4 plain
URLs followed by the first 4 clarified URLs, whenever the plain slice lies
within its backing array. -/
theorem prepareImages_read_at_return (h h' : Heap) (normalImages clarifiedImages r : Slice)
    (hin : normalImages.array < h.length)
    (hfit : normalImages.offset + normalImages.cap ≤ (h.getD normalImages.array []).length)
    (hok : prepareImages h normalImages clarifiedImages = .ok (h', r)) :
    read h' r = (read h normalImages).take 4 ++ (read h clarifiedImages).take 4 := by
  unfold prepareImages at hok
  simp only [maxImages] at hok
  by_cases hbad : normalImages.len < 8 / 2 ∨ clarifiedImages.len < 8 / 2
  · rw [if_pos hbad] at hok; cases hok
  · rw [if_neg hbad] at hok
    have hn : 4 ≤ normalImages.len := by omega
    have hc : 4 ≤ clarifiedImages.len := by omega
    injection hok with hok
    rw [← read_upTo hn, ← read_upTo hc]
    generalize hvals : read h (clarifiedImages.upTo 4) = vals
    have h84 : 8 / 2 = 4 := rfl
    rw [h84, hvals] at hok
    unfold goAppend at hok
    by_cases hroom : (normalImages.upTo 4).len + vals.length ≤ (normalImages.upTo 4).cap
    · rw [if_pos hroom] at hok
      injection hok with hh hr
      subst hh hr
      simp only [Slice.upTo] at hroom ⊢
      unfold read
      simp only [List.getD_eq_getElem?_getD, List.getElem?_set_self hin, Option.getD_some]
      simp only [List.getD_eq_getElem?_getD] at hfit
      rw [List.getElem?_eq_getElem hin, Option.getD_some] at hfit ⊢
      generalize h[normalImages.array] = cells at hfit ⊢
      unfold store
      have hlen : (cells.take (normalImages.offset + 4)).length = normalImages.offset + 4 := by
        rw [List.length_take]; omega
      rw [List.append_assoc, List.drop_append_of_le_length (by omega), List.drop_take,
        show normalImages.offset + 4 - normalImages.offset = 4 by omega]
      have hA : ((cells.drop normalImages.offset).take 4).length = 4 := by
        rw [List.length_take, List.length_drop]; omega
      rw [List.take_append_eq_append_take, hA, List.take_of_length_le (by omega),
        show 4 + vals.length - 4 = vals.length by omega, List.take_left]
    · rw [if_neg hroom] at hok
      injection hok with hh hr
      subst hh hr
      unfold read
      simp only [List.getD_eq_getElem?_getD, List.getElem?_concat_length, Option.getD_some,
        List.drop_zero, Slice.upTo]
      apply List.take_of_length_le
      rw [List.length_append, List.length_take]
      omega

end heap

end port

end Vocaboost
